import Mathlib

/-!
Verification development for the skills-manager repository.

Strings from the Rust source are modelled as `List Char`; agent ids, display
names and relative paths (which are only compared and copied) use `String`.
The parser module (`src/src-tauri/src/skill_parser.rs`) is embedded as pure
functions over `List Char`; the link orchestrator (`src/src-tauri/src/lib.rs`)
is embedded over an explicit per-agent filesystem state, with boolean oracles
standing for the outcome of the OS calls a step performs (directory creation,
symlink creation, symlink removal), so that the partial-failure branches of the
source are live in the model.
-/

namespace SkillsManager

/-! ### Character and string primitives

ASCII whitespace as used by Rust's `str::trim` family (the source never feeds
non-ASCII whitespace to these functions; Unicode-only whitespace is out of
scope of the embedding). -/

def isWS (c : Char) : Bool :=
  c = ' ' || c = '\t' || c = '\n' || c = '\r'

/-- Rust `str::trim_start`. -/
def trimStart (s : List Char) : List Char := s.dropWhile isWS

/-- Rust `str::trim_end`. -/
def trimEnd (s : List Char) : List Char := (s.reverse.dropWhile isWS).reverse

/-- Rust `str::trim`. -/
def trim (s : List Char) : List Char := trimEnd (trimStart s)

/-- Rust `str::starts_with` on a literal pattern. -/
def startsWith : List Char → List Char → Bool
  | [], _ => true
  | _ :: _, [] => false
  | p :: ps, c :: cs => p = c && startsWith ps cs

/-- Rust `str::find` for a literal pattern: index of the first occurrence. -/
def findSub (pat : List Char) : List Char → Option Nat
  | [] => if pat = [] then some 0 else none
  | c :: cs =>
    if startsWith pat (c :: cs) then some 0
    else (findSub pat cs).map (· + 1)

/-- Substring containment, Rust `str::contains` on a literal pattern. -/
def containsSub (pat s : List Char) : Bool := (findSub pat s).isSome

/-- Strip one trailing carriage return (the `\r` of a `\r\n` line ending). -/
def stripCR (l : List Char) : List Char :=
  if l.getLast? = some '\r' then l.dropLast else l

/-- Worker for `splitLines`; `cur` holds the current line reversed. -/
def splitLinesGo : List Char → List Char → List (List Char)
  | [], cur => if cur = [] then [] else [cur.reverse]
  | c :: rest, cur =>
    if c = '\n' then stripCR cur.reverse :: splitLinesGo rest []
    else splitLinesGo rest (c :: cur)

/-- Rust `str::lines`: split at `\n`, strip a `\r` before each split point,
and do not yield a final empty line for input ending in a line break. -/
def splitLines (s : List Char) : List (List Char) := splitLinesGo s []

/-- Join pieces with a single separating space, Rust `[&str]::join(" ")`. -/
def joinSp : List (List Char) → List Char
  | [] => []
  | [l] => l
  | l :: ls => l ++ ' ' :: joinSp ls

/-- ASCII lowercase of a string, Rust `str::to_lowercase` (the source only
lowercases heading text that is compared against the ASCII pattern
"allowed tools", so the ASCII case suffices). -/
def lowerStr (s : List Char) : List Char := s.map Char.toLower

/-! ### SkillMetadata and the descriptor parser (`src/src-tauri/src/skill_parser.rs`) -/

/-- `SkillMetadata` from skill_parser.rs: name, description, allowed tools. -/
structure SkillMetadata where
  name : List Char
  description : List Char
  allowed_tools : List (List Char)
deriving DecidableEq, Repr

/-- `SkillMetadata::default()`: all fields empty. -/
def SkillMetadata.default : SkillMetadata := ⟨[], [], []⟩

/-- `FrontmatterData` from skill_parser.rs: the three optional keys a
frontmatter body may set. -/
structure FrontmatterData where
  name : Option (List Char)
  description : Option (List Char)
  allowed_tools : Option (List (List Char))
deriving DecidableEq, Repr

/-- The apostrophe character. -/
def quoteChar1 : Char := Char.ofNat 39

/-- The backtick character. -/
def quoteChar2 : Char := Char.ofNat 96

/-- The opening curly brace character. -/
def braceOpen : Char := Char.ofNat 123

/-- The closing curly brace character. -/
def braceClose : Char := Char.ofNat 125

/-- The `special_chars` array of `needs_yaml_quoting`. -/
def specialChars : List Char :=
  [':', '#', '[', ']', braceOpen, braceClose, ',', '&', '*', '!', '|', '>',
   quoteChar1, '"', '%', '@', quoteChar2]

/-- The reserved scalar words of `needs_yaml_quoting` (booleans and null). -/
def reservedWords : List (List Char) :=
  ["true".data, "false".data, "yes".data, "no".data, "on".data, "off".data,
   "null".data, "~".data]

/-- `needs_yaml_quoting` from skill_parser.rs: whether a scalar must be
emitted double-quoted. -/
def needs_yaml_quoting (value : List Char) : Bool :=
  if value = [] then false
  else if value.any (fun c => specialChars.contains c) then true
  else if value.head? = some '-' || value.head? = some '?' || value.head? = some ' ' then true
  else if reservedWords.contains (lowerStr value) then true
  else false

/-- Rust `str::replace(c, rep)` specialised to a single-character pattern. -/
def replaceChar (c : Char) (rep : List Char) : List Char → List Char
  | [] => []
  | x :: xs => (if x = c then rep else [x]) ++ replaceChar c rep xs

/-- The escaping of `format_yaml_field`: first double every backslash, then
escape every double quote (`value.replace('\\', "\\\\").replace('"', "\\\"")`). -/
def escapeYaml (value : List Char) : List Char :=
  replaceChar '"' ['\\', '"'] (replaceChar '\\' ['\\', '\\'] value)

/-- `format_yaml_field` from skill_parser.rs: one `key: value` line, with the
value double-quoted and escaped when `needs_yaml_quoting` says so. -/
def format_yaml_field (key value : List Char) : List Char :=
  if needs_yaml_quoting value then
    key ++ ": \"".data ++ escapeYaml value ++ "\"\n".data
  else
    key ++ ": ".data ++ value ++ "\n".data

/-- `format_skill_md` from skill_parser.rs: frontmatter delimiters, a name
line, a description line, and an allowed-tools block only when non-empty. -/
def format_skill_md (m : SkillMetadata) : List Char :=
  "---\n".data
    ++ format_yaml_field "name".data m.name
    ++ format_yaml_field "description".data m.description
    ++ (if m.allowed_tools = [] then []
        else "allowed-tools:\n".data
          ++ m.allowed_tools.foldr (fun t acc => "  - ".data ++ t ++ '\n' :: acc) [])
    ++ "---\n".data

/-! #### The minimal YAML mapping parser

Modelled from the spec: the source hands the frontmatter body to the external
`serde_yaml` crate, which is not part of this repository.  Per §4.1 of the
spec the body must parse as "a minimal key-value mapping with keys `name`
(string), `description` (string), `allowed-tools` (sequence of strings)", and
any structural or semantic failure abandons the frontmatter format.  The model
below parses exactly that minimal grammar: top-level `key: scalar` lines, an
`allowed-tools:` key followed by `- item` lines, scalars either plain (free of
YAML special characters, surrounding whitespace trimmed) or double-quoted with
backslash escapes, and any other shape is a failure. -/

/-- Undo the double-quoted escaping: a backslash escapes a backslash or a
quote; a bare quote or a trailing backslash is malformed. -/
def unescapeQuoted : List Char → Option (List Char)
  | [] => some []
  | c :: rest =>
    if c = '\\' then
      match rest with
      | [] => none
      | c2 :: rest2 =>
        if c2 = '\\' || c2 = '"' then (unescapeQuoted rest2).map (c2 :: ·) else none
    else if c = '"' then none
    else (unescapeQuoted rest).map (c :: ·)

/-- A plain (unquoted) scalar is a string: it may not contain YAML special
characters, which would give it structure or a non-string type. -/
def plainOk (t : List Char) : Bool := t.all (fun c => !specialChars.contains c)

/-- Parse the text after `key:` as a string scalar: trim, then either a
double-quoted escaped string or a plain scalar. -/
def scalarParse (raw : List Char) : Option (List Char) :=
  let t := trim raw
  if t.head? = some '"' then
    let rest := t.tail
    if rest.getLast? = some '"' then unescapeQuoted rest.dropLast else none
  else if plainOk t then some t else none

/-- One `- item` line of the allowed-tools block. -/
def itemParse (l : List Char) : Option (List Char) :=
  let t := trim l
  if startsWith "- ".data t then scalarParse (t.drop 2) else none

/-- Whether a line continues an allowed-tools block. -/
def isItemLine (l : List Char) : Bool := startsWith "- ".data (trim l)

/-- Mode of the line-by-line mapping parse: at top level, or inside the
allowed-tools block. -/
inductive YamlMode where
  | top
  | tools
deriving DecidableEq

/-- Line-by-line parse of the minimal mapping.  Blank lines are skipped; a
key may be given at most once; inside the allowed-tools block item lines
accumulate and any other non-blank line is dispatched as a key line again;
an unrecognised line is a failure. -/
def yamlLoop : List (List Char) → YamlMode → FrontmatterData → Option FrontmatterData
  | [], _, acc => some acc
  | l :: ls, mode, acc =>
    if mode = .tools && isItemLine l then
      match itemParse l, acc.allowed_tools with
      | some v, some ts => yamlLoop ls .tools { acc with allowed_tools := some (ts ++ [v]) }
      | _, _ => none
    else if (trim l) = [] then yamlLoop ls mode acc
    else if startsWith "name:".data l then
      match acc.name, scalarParse (l.drop 5) with
      | none, some v => yamlLoop ls .top { acc with name := some v }
      | _, _ => none
    else if startsWith "description:".data l then
      match acc.description, scalarParse (l.drop 12) with
      | none, some v => yamlLoop ls .top { acc with description := some v }
      | _, _ => none
    else if startsWith "allowed-tools:".data l then
      match acc.allowed_tools, trim (l.drop 14) with
      | none, [] => yamlLoop ls .tools { acc with allowed_tools := some [] }
      | _, _ => none
    else none

/-- Parse a frontmatter body as the minimal mapping.  An empty body (no
lines) is a failure, as a document with no content cannot be deserialised
into the frontmatter structure. -/
def yamlParse (body : List Char) : Option FrontmatterData :=
  match splitLines body with
  | [] => none
  | ls => yamlLoop ls .top ⟨none, none, none⟩

/-- `parse_frontmatter` from skill_parser.rs: require the (whitespace-trimmed)
content to start with `---`, locate the first `\n---`, parse the text between
as the minimal mapping, and default the unset keys. -/
def parse_frontmatter (content : List Char) : Option SkillMetadata :=
  let trimmed := trimStart content
  if startsWith "---".data trimmed then
    let after := trimmed.drop 3
    match findSub "\n---".data after with
    | some closingPos =>
      (yamlParse (trim (after.take closingPos))).map fun fm =>
        ⟨fm.name.getD [], fm.description.getD [], fm.allowed_tools.getD []⟩
    | none => none
  else none

/-! #### The heading-format parser -/

/-- The name scan of `parse_heading_format`: the first line whose trimmed form
starts with `# ` but not `## ` gives the name; the scan consumes every line it
passes over, and all lines when no heading is found. -/
def scanName : List (List Char) → List Char × List (List Char)
  | [] => ([], [])
  | l :: ls =>
    let t := trim l
    if startsWith "# ".data t && !startsWith "## ".data t then (trim (t.drop 2), ls)
    else scanName ls

/-- Stop condition of the description loop: a blank line or a heading. -/
def descStop (l : List Char) : Bool :=
  trim l = [] || startsWith "#".data (trim l)

/-- The allowed-tools section scan: drop lines until a heading line whose
lowercased text contains "allowed tools", returning the lines after it. -/
def findToolsSection : List (List Char) → List (List Char)
  | [] => []
  | l :: ls =>
    let t := trim l
    if startsWith "#".data t && containsSub "allowed tools".data (lowerStr t) then ls
    else findToolsSection ls

/-- The list-item loop: collect `- ` / `* ` items, skipping other non-heading
lines (blank lines included), stopping at the next heading; empty items are
dropped. -/
def collectTools : List (List Char) → List (List Char)
  | [] => []
  | l :: ls =>
    let t := trim l
    if startsWith "#".data t then []
    else if startsWith "- ".data t || startsWith "* ".data t then
      let tool := trim (t.drop 2)
      if tool = [] then collectTools ls else tool :: collectTools ls
    else collectTools ls

/-- `parse_heading_format` from skill_parser.rs. -/
def parse_heading_format (content : List Char) : SkillMetadata :=
  let lines := splitLines content
  let (name, rest1) := scanName lines
  let rest2 := rest1.dropWhile (fun l => trim l = [])
  let descLines := (rest2.takeWhile (fun l => !descStop l)).map trim
  let rest3 := rest2.dropWhile (fun l => !descStop l)
  { name := name
    description := joinSp descLines
    allowed_tools := collectTools (findToolsSection rest3) }

/-- `parse_skill_md` from skill_parser.rs: frontmatter first, heading format
as the fallback. -/
def parse_skill_md (content : List Char) : SkillMetadata :=
  match parse_frontmatter content with
  | some m => m
  | none => parse_heading_format content

/-! ### The link orchestrator (`src/src-tauri/src/lib.rs`)

The filesystem is modelled per agent: whether the agent's skills directory
exists (`detected`, the probe `detect_agents_with_home` performs), what
`fs::symlink_metadata` finds at the agent's target path
`home/<relative path>/<skill name>` (`entry`), and boolean oracles giving the
outcome of each OS mutation the code may attempt there (`create_dir_all`,
`symlink`, `remove_file`).  The 27 relative paths of the catalog are pairwise
distinct and none is a path prefix of another, so for a fixed skill name the
target paths are independent: one agent's step never changes another agent's
probe results, which the per-agent state representation builds in. -/

/-- An agent definition from `get_agent_definition_list`: id, display name,
relative path. -/
structure AgentDef where
  id : String
  name : String
  path : String
deriving DecidableEq, Repr

/-- `get_agent_definition_list` from lib.rs: the fixed 27-entry catalog. -/
def get_agent_definition_list : List AgentDef :=
  [⟨"amp", "Amp", ".config/agents/skills"⟩,
   ⟨"antigravity", "Antigravity", ".gemini/antigravity/global_skills"⟩,
   ⟨"claude-code", "Claude Code", ".claude/skills"⟩,
   ⟨"clawdbot", "Clawdbot", ".clawdbot/skills"⟩,
   ⟨"cline", "Cline", ".cline/skills"⟩,
   ⟨"codex", "Codex", ".codex/skills"⟩,
   ⟨"command-code", "Command Code", ".commandcode/skills"⟩,
   ⟨"continue", "Continue", ".continue/skills"⟩,
   ⟨"crush", "Crush", ".config/crush/skills"⟩,
   ⟨"cursor", "Cursor", ".cursor/skills"⟩,
   ⟨"droid", "Droid", ".factory/skills"⟩,
   ⟨"gemini-cli", "Gemini CLI", ".gemini/skills"⟩,
   ⟨"github-copilot", "GitHub Copilot", ".copilot/skills"⟩,
   ⟨"goose", "Goose", ".config/goose/skills"⟩,
   ⟨"kilo-code", "Kilo Code", ".kilocode/skills"⟩,
   ⟨"kiro-cli", "Kiro CLI", ".kiro/skills"⟩,
   ⟨"mcpjam", "MCPJam", ".mcpjam/skills"⟩,
   ⟨"opencode", "OpenCode", ".config/opencode/skills"⟩,
   ⟨"openhands", "OpenHands", ".openhands/skills"⟩,
   ⟨"pi", "Pi", ".pi/agent/skills"⟩,
   ⟨"qoder", "Qoder", ".qoder/skills"⟩,
   ⟨"qwen-code", "Qwen Code", ".qwen/skills"⟩,
   ⟨"roo-code", "Roo Code", ".roo/skills"⟩,
   ⟨"trae", "Trae", ".trae/skills"⟩,
   ⟨"windsurf", "Windsurf", ".codeium/windsurf/skills"⟩,
   ⟨"zencoder", "Zencoder", ".zencoder/skills"⟩,
   ⟨"neovate", "Neovate", ".neovate/skills"⟩]

/-- What `fs::symlink_metadata` finds at a path: nothing (or a probe error),
a symbolic link, a regular file, or a directory. -/
inductive Entry where
  | absent
  | symlink
  | file
  | dir
deriving DecidableEq, Repr

/-- The filesystem as one agent's operations observe and mutate it, plus the
outcome oracles for the OS calls a step may attempt. -/
structure AgentFs where
  /-- Whether `home/<relative path>` exists (the detection probe). -/
  detected : Bool
  /-- What `symlink_metadata` finds at `home/<relative path>/<skill>`. -/
  entry : Entry
  /-- Whether `create_dir_all` on the parent directory would succeed. -/
  mkdirOk : Bool
  /-- Whether `symlink(global, target)` on an absent target would succeed. -/
  linkOk : Bool
  /-- Whether `remove_file(target)` on an existing entry would succeed. -/
  removeOk : Bool
deriving DecidableEq, Repr

/-- `FailedOperation` from lib.rs: agent id and error text.  The OS error
fragments interpolated into the messages are abstracted to fixed text. -/
structure FailedOperation where
  agent_id : String
  error : String
deriving DecidableEq, Repr

/-- `BatchResult` from lib.rs: ids that succeeded, failures in order. -/
structure BatchResult where
  success : List String
  failed : List FailedOperation
deriving DecidableEq, Repr

/-- One iteration of the `link_skill_to_all_with_home` loop: skip a
non-detected agent; an existing symlink counts as success; any other existing
entry fails; otherwise create the parent directory and the symlink, recording
a per-agent failure if either OS call fails. -/
def linkOne (d : AgentDef) (st : AgentFs) : Option (String ⊕ FailedOperation) × AgentFs :=
  if !st.detected then (none, st)
  else match st.entry with
    | .symlink => (some (.inl d.id), st)
    | .file => (some (.inr ⟨d.id, "A file or directory already exists at the target path"⟩), st)
    | .dir => (some (.inr ⟨d.id, "A file or directory already exists at the target path"⟩), st)
    | .absent =>
      if !st.mkdirOk then
        (some (.inr ⟨d.id, "Failed to create parent directory"⟩), st)
      else if st.linkOk then (some (.inl d.id), { st with entry := .symlink })
      else (some (.inr ⟨d.id, "Failed to create symlink"⟩), st)

/-- The loop of `link_skill_to_all_with_home` over the agents in catalog
order, threading the filesystem and collecting the batch result. -/
def linkAllGo : List (AgentDef × AgentFs) →
    List String × List FailedOperation × List (AgentDef × AgentFs)
  | [] => ([], [], [])
  | (d, st) :: rest =>
    let (res, st') := linkOne d st
    let (s, f, sts) := linkAllGo rest
    match res with
    | none => (s, f, (d, st') :: sts)
    | some (.inl id) => (id :: s, f, (d, st') :: sts)
    | some (.inr fo) => (s, fo :: f, (d, st') :: sts)

/-- `link_skill_to_all_with_home` from lib.rs: a missing global skill is a
fatal precondition; otherwise every agent is processed and the call returns
the batch result (and, in the model, the updated filesystem). -/
def link_skill_to_all (skillName : String) (globalSkillExists : Bool)
    (agents : List (AgentDef × AgentFs)) :
    Except String (BatchResult × List (AgentDef × AgentFs)) :=
  if !globalSkillExists then
    .error ("Global skill " ++ skillName ++ " does not exist")
  else
    let (s, f, sts) := linkAllGo agents
    .ok (⟨s, f⟩, sts)

/-- One iteration of the `unlink_skill_from_all_with_home` loop: only an
entry probed as a symlink is touched; removal failure is recorded per agent;
anything else is skipped silently.  Detection plays no part. -/
def unlinkOne (d : AgentDef) (st : AgentFs) : Option (String ⊕ FailedOperation) × AgentFs :=
  match st.entry with
  | .symlink =>
    if st.removeOk then (some (.inl d.id), { st with entry := .absent })
    else (some (.inr ⟨d.id, "Failed to remove symlink"⟩), st)
  | _ => (none, st)

/-- The loop of `unlink_skill_from_all_with_home` over the full catalog. -/
def unlinkAllGo : List (AgentDef × AgentFs) →
    List String × List FailedOperation × List (AgentDef × AgentFs)
  | [] => ([], [], [])
  | (d, st) :: rest =>
    let (res, st') := unlinkOne d st
    let (s, f, sts) := unlinkAllGo rest
    match res with
    | none => (s, f, (d, st') :: sts)
    | some (.inl id) => (id :: s, f, (d, st') :: sts)
    | some (.inr fo) => (s, fo :: f, (d, st') :: sts)

/-- `unlink_skill_from_all_with_home` from lib.rs (the Rust function always
returns `Ok`, so the model returns the pair directly). -/
def unlink_skill_from_all (agents : List (AgentDef × AgentFs)) :
    BatchResult × List (AgentDef × AgentFs) :=
  let (s, f, sts) := unlinkAllGo agents
  (⟨s, f⟩, sts)

/-- `toggle_skill` from lib.rs, for the agent found under `agent_id`, acting
on that agent's filesystem state.  Enabling requires the global copy, ignores
`create_dir_all` errors, and calls `symlink`, which fails whenever any entry
already occupies the target (and may fail on an absent target, via the
oracle).  Disabling removes the entry when the existence probe or the
metadata probe sees one, and is a no-op otherwise. -/
def toggle_skill (catalog : List AgentDef) (agent_id : String) (enable : Bool)
    (globalSkillExists : Bool) (st : AgentFs) : Except String AgentFs :=
  match catalog.find? (fun a => a.id = agent_id) with
  | none => .error "Agent not found"
  | some _ =>
    if enable then
      if !globalSkillExists then .error "Global skill does not exist"
      else match st.entry with
        | .absent =>
          if st.linkOk then .ok { st with entry := .symlink }
          else .error "Failed to link"
        | _ => .error "Failed to link"
    else
      match st.entry with
      | .absent => .ok st
      | _ =>
        if st.removeOk then .ok { st with entry := .absent }
        else .error "Failed to unlink"

/-! ### Skill metadata loading and the agent detail view -/

/-- The fixed placeholder description of `load_skill_metadata`. -/
def noDescription : List Char := "No description available".data

/-- `load_skill_metadata` from lib.rs.  The input collapses the two
failure branches of the source (`SKILL.md` absent; read error) into `none`,
and a successful read into `some content`. -/
def load_skill_metadata (content : Option (List Char)) (dirName : String) : SkillMetadata :=
  match content with
  | some c =>
    let parsed := parse_skill_md c
    { parsed with
      name := if parsed.name = [] then dirName.data else parsed.name
      description := if parsed.description = [] then noDescription else parsed.description }
  | none => ⟨dirName.data, noDescription, []⟩

/-- `AgentSkillStatus` from lib.rs. -/
inductive AgentSkillStatus where
  | symlinkStatus
  | localStatus
  | notInstalled
deriving DecidableEq, Repr

/-- `AgentSkill` from lib.rs: a skill as one agent's directory shows it. -/
structure AgentSkill where
  name : String
  metadata : SkillMetadata
  status : AgentSkillStatus
  source_path : Option String
  in_global : Bool
deriving DecidableEq, Repr

/-- An `Agent` from lib.rs: a definition plus its detection flag. -/
structure Agent where
  id : String
  name : String
  path : String
  detected : Bool
deriving DecidableEq, Repr

/-- `AgentDetailData` from lib.rs. -/
structure AgentDetailData where
  agent : Agent
  skills : List AgentSkill
deriving DecidableEq, Repr

/-- One entry of a directory listing as `get_agent_detail_with_home` probes
it: its name, what `symlink_metadata` reports, the raw `read_link` target
when it is a symlink (`none` when reading the link fails), the `SKILL.md`
content the metadata load finds through it (`none` when absent or
unreadable), and its absolute path rendered as a string. -/
structure DirEntry where
  name : String
  kind : Entry
  linkTarget : Option String
  descriptor : Option (List Char)
  pathStr : String
deriving DecidableEq, Repr

/-- Rust `str::starts_with('.')` with a character pattern: the first
character is a dot. -/
def isHiddenName (s : String) : Bool := s.data.head? = some '.'

/-- Rust `str::cmp` as a less-or-equal test: lexicographic comparison by
character value, which for valid UTF-8 coincides with Rust's byte-wise
ordering. -/
def lexLe : List Char → List Char → Bool
  | [], _ => true
  | _ :: _, [] => false
  | a :: as, b :: bs => if a = b then lexLe as bs else decide (a < b)

/-- The agent-directory scan of `get_agent_detail_with_home`: hidden names
and names already seen are skipped; a symlink yields a `symlinkStatus` skill
whose source is the raw link target (or "unknown"); a non-symlink directory
yields a `localStatus` skill; anything else (a regular file, or a failed
probe) yields nothing and is not marked seen. -/
def scanAgentDir (globalNames : List String) : List DirEntry → List String → List AgentSkill
  | [], _ => []
  | e :: rest, seen =>
    if isHiddenName e.name then scanAgentDir globalNames rest seen
    else if seen.contains e.name then scanAgentDir globalNames rest seen
    else match e.kind with
      | .symlink =>
        ⟨e.name, load_skill_metadata e.descriptor e.name, .symlinkStatus,
          some (e.linkTarget.getD "unknown"), globalNames.contains e.name⟩
          :: scanAgentDir globalNames rest (e.name :: seen)
      | .dir =>
        ⟨e.name, load_skill_metadata e.descriptor e.name, .localStatus,
          some e.pathStr, globalNames.contains e.name⟩
          :: scanAgentDir globalNames rest (e.name :: seen)
      | _ => scanAgentDir globalNames rest seen

/-- The global skill name set of `get_agent_detail_with_home`: names of
non-hidden directories of the global skills listing (a set, so duplicates
collapse). -/
def globalNamesOf (globalEntries : List DirEntry) : List String :=
  ((globalEntries.filter (fun e => e.kind = .dir && !isHiddenName e.name)).map
    (·.name)).dedup

/-- The not-installed tail of the detail listing: every global skill name
not yet seen, with metadata loaded from the global copy, status
`notInstalled` and no source path. -/
def notInstalledSkills (globalEntries : List DirEntry) (seen : List String) :
    List AgentSkill :=
  ((globalNamesOf globalEntries).filter (fun n => !seen.contains n)).map fun n =>
    (⟨n, load_skill_metadata ((globalEntries.find? (fun e => e.name = n)).bind
        (·.descriptor)) n, .notInstalled, none, true⟩ : AgentSkill)

/-- The skill list `get_agent_detail_with_home` builds for a found agent:
the agent's directory is scanned only when the agent is detected, the
not-installed global skills are appended, and the whole list is sorted by
skill name. -/
def detailSkills (a : Agent) (globalEntries agentEntries : List DirEntry) :
    List AgentSkill :=
  let scanned :=
    if a.detected then scanAgentDir (globalNamesOf globalEntries) agentEntries [] else []
  (scanned ++ notInstalledSkills globalEntries (scanned.map (·.name))).mergeSort
    fun x y => lexLe x.name.data y.name.data

/-- `get_agent_detail_with_home` from lib.rs.  `agents` is the detection
output; `globalEntries` lists the global skills directory, `agentEntries`
the agent's directory.  An unknown id is an error; otherwise the sorted
skill list of `detailSkills` is returned. -/
def get_agent_detail (agents : List Agent) (agentId : String)
    (globalEntries agentEntries : List DirEntry) : Except String AgentDetailData :=
  match agents.find? (fun a => a.id = agentId) with
  | none => .error ("Agent " ++ agentId ++ " not found")
  | some a => .ok ⟨a, detailSkills a globalEntries agentEntries⟩

/-! ### C7: metadata loader fallbacks -/

/-- C7: the inventory's metadata loader returns the directory name, the fixed
placeholder description and no tools when the descriptor file is absent or
unreadable; when the file parses, the directory name is substituted for the
name exactly when the parsed name is empty, and the placeholder is
substituted for the description exactly when the parsed description is
empty — each substitution independently, never replacing a non-empty field. -/
theorem load_skill_metadata_fallbacks (dirName : String) (c : List Char) :
    load_skill_metadata none dirName = ⟨dirName.data, noDescription, []⟩ ∧
    ((parse_skill_md c).name = [] →
      (load_skill_metadata (some c) dirName).name = dirName.data) ∧
    ((parse_skill_md c).name ≠ [] →
      (load_skill_metadata (some c) dirName).name = (parse_skill_md c).name) ∧
    ((parse_skill_md c).description = [] →
      (load_skill_metadata (some c) dirName).description = noDescription) ∧
    ((parse_skill_md c).description ≠ [] →
      (load_skill_metadata (some c) dirName).description = (parse_skill_md c).description) ∧
    (load_skill_metadata (some c) dirName).allowed_tools = (parse_skill_md c).allowed_tools := by
  refine ⟨rfl, ?_, ?_, ?_, ?_, rfl⟩ <;> intro h <;> simp [load_skill_metadata, h]

/-- Witness for C7: a descriptor with a description but an empty name takes
the directory name and keeps the parsed description; a descriptor with a name
but no description keeps the name and takes the placeholder. -/
theorem load_skill_metadata_fallbacks_witness :
    (load_skill_metadata (some "---\ndescription: Has description but no name\n---\n".data)
      "empty-name-skill").name = "empty-name-skill".data ∧
    (load_skill_metadata (some "---\ndescription: Has description but no name\n---\n".data)
      "empty-name-skill").description = "Has description but no name".data ∧
    (load_skill_metadata (some "---\nname: Named Skill\n---\n".data)
      "empty-desc-skill").name = "Named Skill".data ∧
    (load_skill_metadata (some "---\nname: Named Skill\n---\n".data)
      "empty-desc-skill").description = noDescription :=
  ⟨(load_skill_metadata_fallbacks "empty-name-skill" _).2.1 (by decide),
   by
    rw [(load_skill_metadata_fallbacks "empty-name-skill" _).2.2.2.2.1 (by decide)]
    decide,
   by
    rw [(load_skill_metadata_fallbacks "empty-desc-skill" _).2.2.1 (by decide)]
    decide,
   (load_skill_metadata_fallbacks "empty-desc-skill" _).2.2.2.1 (by decide)⟩

/-! ### C9: heading parser with no name heading -/

/-- When no line's trimmed form starts with "# ", the name scan consumes
every line and yields the empty name with no remaining lines. -/
theorem scanName_eq_nil (ls : List (List Char))
    (h : ∀ l ∈ ls, startsWith "# ".data (trim l) = false) :
    scanName ls = ([], []) := by
  induction ls with
  | nil => rfl
  | cons l ls ih =>
    have h0 := h l (by simp)
    simp only [scanName, h0, Bool.false_and, Bool.false_eq_true, if_false]
    exact ih fun x hx => h x (by simp [hx])

/-- C9: for input with no line whose trimmed form begins with "# ", the
heading-format parser returns entirely empty metadata — in particular the
description is empty even when the text has non-blank, non-heading lines,
because the name scan consumes every line before the description scan
starts. -/
theorem parse_heading_format_no_heading (content : List Char)
    (h : ∀ l ∈ splitLines content, startsWith "# ".data (trim l) = false) :
    parse_heading_format content = ⟨[], [], []⟩ := by
  have h1 : scanName (splitLines content) = ([], []) := scanName_eq_nil _ h
  simp [parse_heading_format, h1, joinSp, findToolsSection, collectTools]

/-- Witness for C9: text with non-blank non-heading lines and even an
allowed-tools section parses to all-empty metadata. -/
theorem parse_heading_format_no_heading_witness :
    parse_heading_format "hello\nworld\n## allowed tools\n- t\n".data = ⟨[], [], []⟩ :=
  parse_heading_format_no_heading _ (by decide)

/-! ### C6: when the frontmatter format is attempted -/

/-- Counterexample to C6 as stated: this text's first line is
"---name: hi", not exactly "---", yet the parser does not fall back to the
heading format — it accepts the text as frontmatter (the source only tests
`starts_with("---")`), producing the name "hi" where the heading parser
would produce empty metadata. -/
theorem frontmatter_not_exact_line_counterexample :
    trimStart "---name: hi\n---\n".data = "---name: hi\n---\n".data ∧
    (splitLines "---name: hi\n---\n".data).head? = some "---name: hi".data ∧
    "---name: hi".data ≠ "---".data ∧
    parse_skill_md "---name: hi\n---\n".data ≠
      parse_heading_format "---name: hi\n---\n".data ∧
    (parse_skill_md "---name: hi\n---\n".data).name = "hi".data := by
  refine ⟨by decide, by decide, by decide, by decide, by decide⟩

/-- C6 amended: the parser attempts the frontmatter format exactly when the
text, after stripping leading whitespace, begins with the three characters
`---` (the rest of that first line need not be empty, and the frontmatter
attempt may still fail and fall back); for any text whose stripped form does
not begin with `---`, the heading format is used. -/
theorem parse_skill_md_heading_when_no_dashes (content : List Char)
    (h : startsWith "---".data (trimStart content) = false) :
    parse_skill_md content = parse_heading_format content := by
  unfold parse_skill_md parse_frontmatter
  simp [h]

/-- Witness for the amended C6: a heading-format text not starting with
`---` goes to the heading parser. -/
theorem parse_skill_md_heading_when_no_dashes_witness :
    parse_skill_md "# T\n\nd\n".data = parse_heading_format "# T\n\nd\n".data :=
  parse_skill_md_heading_when_no_dashes _ (by decide)

/-! ### C4: single-agent toggle -/

/-- C4: for an agent present in the catalog, enabling fails with the
missing-global-skill error when the repository copy does not exist, and
fails (wrapping the underlying OS "already exists" error) whenever any entry
already occupies the agent path; disabling removes an entry whenever the
metadata probe sees one (with the removal outcome surfaced) and is a
successful no-op when the entry is already absent. -/
theorem toggle_skill_spec (catalog : List AgentDef) (agent_id : String) (a : AgentDef)
    (ha : catalog.find? (fun x => x.id = agent_id) = some a) (st : AgentFs) :
    (toggle_skill catalog agent_id true false st = .error "Global skill does not exist") ∧
    (st.entry ≠ .absent → ∃ msg, toggle_skill catalog agent_id true true st = .error msg) ∧
    (st.entry = .absent → ∀ ge, toggle_skill catalog agent_id false ge st = .ok st) ∧
    (st.entry ≠ .absent → st.removeOk = true →
      ∀ ge, toggle_skill catalog agent_id false ge st = .ok { st with entry := .absent }) ∧
    (st.entry ≠ .absent → st.removeOk = false →
      ∀ ge, ∃ msg, toggle_skill catalog agent_id false ge st = .error msg) := by
  refine ⟨?_, ?_, ?_, ?_, ?_⟩ <;>
    · intros
      first
        | (simp only [toggle_skill, ha]; rfl)
        | (cases he : st.entry <;> simp_all [toggle_skill, ha])

/-- Witness for C4, at the real catalog and the cursor agent: a blocked
enable fails, enabling without the global copy fails, disabling an absent
entry is a no-op, disabling an existing symlink removes it. -/
theorem toggle_skill_spec_witness :
    (toggle_skill get_agent_definition_list "cursor" true false
      ⟨true, .absent, true, true, true⟩ = .error "Global skill does not exist") ∧
    (∃ msg, toggle_skill get_agent_definition_list "cursor" true true
      ⟨true, .file, true, true, true⟩ = .error msg) ∧
    (toggle_skill get_agent_definition_list "cursor" false true
      ⟨true, .absent, true, true, true⟩ = .ok ⟨true, .absent, true, true, true⟩) ∧
    (toggle_skill get_agent_definition_list "cursor" false true
      ⟨true, .symlink, true, true, true⟩ = .ok ⟨true, .absent, true, true, true⟩) := by
  have h := toggle_skill_spec get_agent_definition_list "cursor"
    ⟨"cursor", "Cursor", ".cursor/skills"⟩ (by decide)
  exact ⟨(h ⟨true, .absent, true, true, true⟩).1,
    (h ⟨true, .file, true, true, true⟩).2.1 (by decide),
    (h ⟨true, .absent, true, true, true⟩).2.2.1 rfl true,
    (h ⟨true, .symlink, true, true, true⟩).2.2.2.1 (by decide) rfl true⟩

/-! ### C2, C3, C5: the batch operations -/

/-- Whether a detected agent's link step will be recorded as a success:
either the target is already a symlink, or it is absent and both OS calls
succeed. -/
def linkSucceeds (st : AgentFs) : Bool :=
  st.entry = .symlink || (st.entry = .absent && st.mkdirOk && st.linkOk)

/-- The success ids of the link loop are exactly the detected agents whose
step succeeds, in catalog order. -/
theorem linkAllGo_success (l : List (AgentDef × AgentFs)) :
    (linkAllGo l).1 =
      (l.filter fun p => p.2.detected && linkSucceeds p.2).map fun p => p.1.id := by
  induction l with
  | nil => rfl
  | cons p rest ih =>
    obtain ⟨d, det, ent, mk, lk, rm⟩ := p
    cases det <;> cases ent <;> cases mk <;> cases lk <;>
      simp_all [linkAllGo, linkOne, linkSucceeds]

/-- The failed operations of the link loop are exactly the detected agents
whose step fails, in catalog order, each paired with its error text. -/
theorem linkAllGo_failed (l : List (AgentDef × AgentFs)) :
    (linkAllGo l).2.1.map FailedOperation.agent_id =
      (l.filter fun p => p.2.detected && !linkSucceeds p.2).map fun p => p.1.id := by
  induction l with
  | nil => rfl
  | cons p rest ih =>
    obtain ⟨d, det, ent, mk, lk, rm⟩ := p
    cases det <;> cases ent <;> cases mk <;> cases lk <;>
      simp_all [linkAllGo, linkOne, linkSucceeds]

/-- Splitting a filtered count by a second test. -/
theorem length_filter_and_split (l : List α) (p q : α → Bool) :
    (l.filter fun a => p a && q a).length + (l.filter fun a => p a && !q a).length
      = (l.filter p).length := by
  induction l with
  | nil => rfl
  | cons x xs ih =>
    cases hp : p x <;> cases hq : q x <;> simp [hp, hq, ih] <;> omega

/-- C2: when the global skill exists, `linkAll` returns a batch result in
which every detected agent's id lands in exactly one of the success and
failed lists (so the two lengths add up to the number of detected agents),
and every non-detected agent's id appears in neither; nothing stops the loop,
so coverage of the detected agents is total. -/
theorem link_skill_to_all_total_coverage (skill : String)
    (agents : List (AgentDef × AgentFs))
    (hids : (agents.map fun p => p.1.id).Nodup) :
    ∃ r sts, link_skill_to_all skill true agents = .ok (r, sts) ∧
      r.success.length + r.failed.length
        = (agents.filter fun p => p.2.detected).length ∧
      (∀ p ∈ agents, p.2.detected = true →
        (p.1.id ∈ r.success ∧ p.1.id ∉ r.failed.map FailedOperation.agent_id) ∨
        (p.1.id ∉ r.success ∧ p.1.id ∈ r.failed.map FailedOperation.agent_id)) ∧
      (∀ p ∈ agents, p.2.detected = false →
        p.1.id ∉ r.success ∧ p.1.id ∉ r.failed.map FailedOperation.agent_id) := by
  have hinj := List.inj_on_of_nodup_map hids
  refine ⟨⟨(linkAllGo agents).1, (linkAllGo agents).2.1⟩, (linkAllGo agents).2.2,
    ?_, ?_, ?_, ?_⟩
  · rcases hgo : linkAllGo agents with ⟨s, f, sts⟩
    simp [link_skill_to_all, hgo]
  · have hs := congrArg List.length (linkAllGo_success agents)
    have hf := congrArg List.length (linkAllGo_failed agents)
    simp only [List.length_map] at hs hf
    simp only [hs, hf]
    exact length_filter_and_split agents _ _
  · intro p hp hdet
    by_cases hq : linkSucceeds p.2 = true
    · left
      constructor
      · rw [linkAllGo_success]
        exact List.mem_map_of_mem _ (List.mem_filter.mpr ⟨hp, by simp [hdet, hq]⟩)
      · rw [linkAllGo_failed]
        intro hmem
        obtain ⟨q, hqf, hqid⟩ := List.mem_map.mp hmem
        obtain ⟨hqmem, hqcond⟩ := List.mem_filter.mp hqf
        cases hinj hqmem hp hqid
        simp [hq] at hqcond
    · right
      constructor
      · rw [linkAllGo_success]
        intro hmem
        obtain ⟨q, hqf, hqid⟩ := List.mem_map.mp hmem
        obtain ⟨hqmem, hqcond⟩ := List.mem_filter.mp hqf
        cases hinj hqmem hp hqid
        simp [hq] at hqcond
      · rw [linkAllGo_failed]
        exact List.mem_map_of_mem _
          (List.mem_filter.mpr ⟨hp, by simp [hdet]; exact Bool.of_not_eq_true hq⟩)
  · intro p hp hdet
    constructor
    · rw [linkAllGo_success]
      intro hmem
      obtain ⟨q, hqf, hqid⟩ := List.mem_map.mp hmem
      obtain ⟨hqmem, hqcond⟩ := List.mem_filter.mp hqf
      cases hinj hqmem hp hqid
      simp [hdet] at hqcond
    · rw [linkAllGo_failed]
      intro hmem
      obtain ⟨q, hqf, hqid⟩ := List.mem_map.mp hmem
      obtain ⟨hqmem, hqcond⟩ := List.mem_filter.mp hqf
      cases hinj hqmem hp hqid
      simp [hdet] at hqcond

/-- Witness for C2: three catalog agents, one detected and linkable, one not
detected, one detected but blocked by a regular file. -/
theorem link_skill_to_all_total_coverage_witness :
    ∃ r sts, link_skill_to_all "demo" true
        [(⟨"amp", "Amp", ".config/agents/skills"⟩, ⟨true, .absent, true, true, true⟩),
         (⟨"antigravity", "Antigravity", ".gemini/antigravity/global_skills"⟩,
           ⟨false, .absent, true, true, true⟩),
         (⟨"cursor", "Cursor", ".cursor/skills"⟩, ⟨true, .file, true, true, true⟩)]
      = .ok (r, sts) ∧
      r.success.length + r.failed.length
        = (([(⟨"amp", "Amp", ".config/agents/skills"⟩, ⟨true, .absent, true, true, true⟩),
            (⟨"antigravity", "Antigravity", ".gemini/antigravity/global_skills"⟩,
              ⟨false, .absent, true, true, true⟩),
            (⟨"cursor", "Cursor", ".cursor/skills"⟩, ⟨true, .file, true, true, true⟩)] :
              List (AgentDef × AgentFs)).filter fun p => p.2.detected).length ∧
      (∀ p ∈ ([(⟨"amp", "Amp", ".config/agents/skills"⟩, ⟨true, .absent, true, true, true⟩),
            (⟨"antigravity", "Antigravity", ".gemini/antigravity/global_skills"⟩,
              ⟨false, .absent, true, true, true⟩),
            (⟨"cursor", "Cursor", ".cursor/skills"⟩, ⟨true, .file, true, true, true⟩)] :
              List (AgentDef × AgentFs)), p.2.detected = true →
        (p.1.id ∈ r.success ∧ p.1.id ∉ r.failed.map FailedOperation.agent_id) ∨
        (p.1.id ∉ r.success ∧ p.1.id ∈ r.failed.map FailedOperation.agent_id)) ∧
      (∀ p ∈ ([(⟨"amp", "Amp", ".config/agents/skills"⟩, ⟨true, .absent, true, true, true⟩),
            (⟨"antigravity", "Antigravity", ".gemini/antigravity/global_skills"⟩,
              ⟨false, .absent, true, true, true⟩),
            (⟨"cursor", "Cursor", ".cursor/skills"⟩, ⟨true, .file, true, true, true⟩)] :
              List (AgentDef × AgentFs)), p.2.detected = false →
        p.1.id ∉ r.success ∧ p.1.id ∉ r.failed.map FailedOperation.agent_id) :=
  link_skill_to_all_total_coverage "demo" _ (by decide)

/-- What one unlink step does to the filesystem: an entry probed as a symlink
whose removal succeeds becomes absent; every other entry is untouched. -/
def unlinkStep (p : AgentDef × AgentFs) : AgentDef × AgentFs :=
  if p.2.entry = .symlink && p.2.removeOk then (p.1, { p.2 with entry := .absent }) else p

/-- The success ids of the unlink loop are exactly the agents whose target
was a symlink and whose removal succeeded, in catalog order — detection
plays no part. -/
theorem unlinkAllGo_success (l : List (AgentDef × AgentFs)) :
    (unlinkAllGo l).1 =
      (l.filter fun p => p.2.entry = .symlink && p.2.removeOk).map fun p => p.1.id := by
  induction l with
  | nil => rfl
  | cons p rest ih =>
    obtain ⟨d, det, ent, mk, lk, rm⟩ := p
    cases ent <;> cases rm <;> simp_all [unlinkAllGo, unlinkOne]

/-- The failed operations of the unlink loop are exactly the agents whose
target was a symlink and whose removal failed, in catalog order. -/
theorem unlinkAllGo_failed (l : List (AgentDef × AgentFs)) :
    (unlinkAllGo l).2.1 =
      (l.filter fun p => p.2.entry = .symlink && !p.2.removeOk).map fun p =>
        (⟨p.1.id, "Failed to remove symlink"⟩ : FailedOperation) := by
  induction l with
  | nil => rfl
  | cons p rest ih =>
    obtain ⟨d, det, ent, mk, lk, rm⟩ := p
    cases ent <;> cases rm <;> simp_all [unlinkAllGo, unlinkOne]

/-- The unlink loop maps `unlinkStep` over the filesystem. -/
theorem unlinkAllGo_states (l : List (AgentDef × AgentFs)) :
    (unlinkAllGo l).2.2 = l.map unlinkStep := by
  induction l with
  | nil => rfl
  | cons p rest ih =>
    obtain ⟨d, det, ent, mk, lk, rm⟩ := p
    cases ent <;> cases rm <;> simp_all [unlinkAllGo, unlinkOne, unlinkStep]

/-- C3: `unlinkFromAll` iterates every catalog entry regardless of detection
state (no conclusion below assumes anything about `detected`): an absent
target appears in neither list; a symlink target is attempted, landing in
success or failed by the removal outcome; a present non-symlink target is
left unchanged on the filesystem and appears in neither list. -/
theorem unlink_skill_from_all_scope (agents : List (AgentDef × AgentFs))
    (hids : (agents.map fun p => p.1.id).Nodup) :
    (∀ p ∈ agents, p.2.entry = .absent →
      p.1.id ∉ (unlink_skill_from_all agents).1.success ∧
      p.1.id ∉ (unlink_skill_from_all agents).1.failed.map FailedOperation.agent_id) ∧
    (∀ p ∈ agents, p.2.entry = .symlink →
      (p.2.removeOk = true →
        p.1.id ∈ (unlink_skill_from_all agents).1.success ∧
        p.1.id ∉ (unlink_skill_from_all agents).1.failed.map FailedOperation.agent_id) ∧
      (p.2.removeOk = false →
        p.1.id ∉ (unlink_skill_from_all agents).1.success ∧
        p.1.id ∈ (unlink_skill_from_all agents).1.failed.map FailedOperation.agent_id)) ∧
    (∀ p ∈ agents, p.2.entry = .file ∨ p.2.entry = .dir →
      p.1.id ∉ (unlink_skill_from_all agents).1.success ∧
      p.1.id ∉ (unlink_skill_from_all agents).1.failed.map FailedOperation.agent_id) ∧
    ((unlink_skill_from_all agents).2 = agents.map unlinkStep) ∧
    (∀ p : AgentDef × AgentFs, p.2.entry ≠ .symlink → unlinkStep p = p) := by
  have hinj := List.inj_on_of_nodup_map hids
  have hres : (unlink_skill_from_all agents).1.success = (unlinkAllGo agents).1 ∧
      (unlink_skill_from_all agents).1.failed = (unlinkAllGo agents).2.1 ∧
      (unlink_skill_from_all agents).2 = (unlinkAllGo agents).2.2 := by
    rcases hgo : unlinkAllGo agents with ⟨s, f, sts⟩
    simp [unlink_skill_from_all, hgo]
  obtain ⟨hrs, hrf, hrsts⟩ := hres
  have hnotmem : ∀ p ∈ agents, (p.2.entry = .symlink → p.2.removeOk = false) →
      p.1.id ∉ (unlinkAllGo agents).1 := by
    intro p hp hcond hmem
    rw [unlinkAllGo_success] at hmem
    obtain ⟨q, hqf, hqid⟩ := List.mem_map.mp hmem
    obtain ⟨hqmem, hqcond⟩ := List.mem_filter.mp hqf
    cases hinj hqmem hp hqid
    simp only [Bool.and_eq_true, decide_eq_true_eq] at hqcond
    simp [hcond hqcond.1] at hqcond
  have hnotfail : ∀ p ∈ agents, (p.2.entry = .symlink → p.2.removeOk = true) →
      p.1.id ∉ (unlinkAllGo agents).2.1.map FailedOperation.agent_id := by
    intro p hp hcond hmem
    rw [unlinkAllGo_failed] at hmem
    rw [List.map_map] at hmem
    obtain ⟨q, hqf, hqid⟩ := List.mem_map.mp hmem
    obtain ⟨hqmem, hqcond⟩ := List.mem_filter.mp hqf
    cases hinj hqmem hp hqid
    simp only [Bool.and_eq_true, decide_eq_true_eq, Bool.not_eq_true'] at hqcond
    rw [hcond hqcond.1] at hqcond
    exact absurd hqcond.2 (by simp)
  refine ⟨?_, ?_, ?_, by rw [hrsts, unlinkAllGo_states], ?_⟩
  · intro p hp habs
    rw [hrs, hrf]
    exact ⟨hnotmem p hp (by simp [habs]), hnotfail p hp (by simp [habs])⟩
  · intro p hp hsym
    constructor
    · intro hrm
      rw [hrs, hrf]
      refine ⟨?_, hnotfail p hp fun _ => hrm⟩
      rw [unlinkAllGo_success]
      exact List.mem_map_of_mem _ (List.mem_filter.mpr ⟨hp, by simp [hsym, hrm]⟩)
    · intro hrm
      rw [hrs, hrf]
      refine ⟨hnotmem p hp fun _ => hrm, ?_⟩
      rw [unlinkAllGo_failed, List.map_map]
      exact List.mem_map_of_mem _ (List.mem_filter.mpr ⟨hp, by simp [hsym, hrm]⟩)
  · intro p hp hother
    rw [hrs, hrf]
    have hne : p.2.entry ≠ .symlink := by
      rcases hother with h | h <;> simp [h]
    exact ⟨hnotmem p hp (fun h => absurd h hne),
           hnotfail p hp (fun h => absurd h hne)⟩
  · intro p hne
    simp [unlinkStep, hne]

/-- Witness for C3: in a catalog with an absent target, a removable symlink,
a failing symlink removal, and a blocking directory, the absent-target agent
appears in neither result list. -/
theorem unlink_skill_from_all_scope_witness :
    "amp" ∉ (unlink_skill_from_all
        [(⟨"amp", "Amp", ".config/agents/skills"⟩, ⟨true, .absent, true, true, true⟩),
         (⟨"cursor", "Cursor", ".cursor/skills"⟩, ⟨false, .symlink, true, true, true⟩),
         (⟨"codex", "Codex", ".codex/skills"⟩, ⟨true, .symlink, true, true, false⟩),
         (⟨"goose", "Goose", ".config/goose/skills"⟩, ⟨true, .dir, true, true, true⟩)]).1.success ∧
      "amp" ∉ (unlink_skill_from_all
        [(⟨"amp", "Amp", ".config/agents/skills"⟩, ⟨true, .absent, true, true, true⟩),
         (⟨"cursor", "Cursor", ".cursor/skills"⟩, ⟨false, .symlink, true, true, true⟩),
         (⟨"codex", "Codex", ".codex/skills"⟩, ⟨true, .symlink, true, true, false⟩),
         (⟨"goose", "Goose", ".config/goose/skills"⟩,
           ⟨true, .dir, true, true, true⟩)]).1.failed.map FailedOperation.agent_id :=
  (unlink_skill_from_all_scope _ (by decide)).1
    (⟨"amp", "Amp", ".config/agents/skills"⟩, ⟨true, .absent, true, true, true⟩)
    (by simp) rfl

/-- Repeating one link step on the state it produced gives the same outcome
and the same state. -/
theorem linkOne_idem (d : AgentDef) (st : AgentFs) :
    linkOne d (linkOne d st).2 = linkOne d st := by
  obtain ⟨det, ent, mk, lk, rm⟩ := st
  cases det <;> cases ent <;> cases mk <;> cases lk <;> simp [linkOne]

/-- Running the link loop again on the filesystem it produced yields the
identical batch outcome and changes nothing further. -/
theorem linkAllGo_idem (l : List (AgentDef × AgentFs)) :
    linkAllGo ((linkAllGo l).2.2) = linkAllGo l := by
  induction l with
  | nil => rfl
  | cons p rest ih =>
    obtain ⟨d, st⟩ := p
    rcases h1 : linkOne d st with ⟨res, st'⟩
    have h2 : linkOne d st' = (res, st') := by
      have := linkOne_idem d st
      rw [h1] at this
      exact this
    rcases hgo : linkAllGo rest with ⟨s, f, sts⟩
    rw [hgo] at ih
    cases res with
    | none => simp [linkAllGo, h1, hgo, h2, ih]
    | some r => cases r <;> simp [linkAllGo, h1, hgo, h2, ih]

/-- Running the unlink loop again on the filesystem it produced removes
nothing more, reports the same failures, and changes nothing. -/
theorem unlinkAllGo_second (l : List (AgentDef × AgentFs)) :
    unlinkAllGo ((unlinkAllGo l).2.2) = ([], (unlinkAllGo l).2.1, (unlinkAllGo l).2.2) := by
  induction l with
  | nil => rfl
  | cons p rest ih =>
    obtain ⟨d, det, ent, mk, lk, rm⟩ := p
    cases ent <;> cases rm <;> simp_all [unlinkAllGo, unlinkOne]

/-- C5 amended: with nothing external changing between the calls, a second
`linkAll` returns the identical batch result — the same success set both
times, and a failed list equal to the first call's (so empty exactly when
the first reported no failure) — and a second `unlinkFromAll` returns an
empty success list and a failed list equal to the first call's (empty when
the first reported none); neither second call changes the filesystem. -/
theorem batch_second_call (skill : String) (agents : List (AgentDef × AgentFs)) :
    (∀ r1 sts1, link_skill_to_all skill true agents = .ok (r1, sts1) →
      link_skill_to_all skill true sts1 = .ok (r1, sts1)) ∧
    (∀ r1 sts1, unlink_skill_from_all agents = (r1, sts1) →
      unlink_skill_from_all sts1 = (⟨[], r1.failed⟩, sts1)) := by
  constructor
  · intro r1 sts1 h1
    rcases hgo : linkAllGo agents with ⟨s, f, sts⟩
    rw [link_skill_to_all, if_neg (by simp), hgo] at h1
    injection h1 with h1
    injection h1 with hr hsts
    subst hr
    subst hsts
    have hgo2 : linkAllGo sts = (s, f, sts) := by
      have := linkAllGo_idem agents
      rw [hgo] at this
      exact this
    rw [link_skill_to_all, if_neg (by simp), hgo2]
  · intro r1 sts1 h1
    rcases hgo : unlinkAllGo agents with ⟨s, f, sts⟩
    rw [unlink_skill_from_all, hgo] at h1
    injection h1 with hr hsts
    subst hr
    subst hsts
    have hgo2 : unlinkAllGo sts = ([], f, sts) := by
      have := unlinkAllGo_second agents
      rw [hgo] at this
      exact this
    rw [unlink_skill_from_all, hgo2]

/-- Witness for the amended C5: the second `linkAll` call on the filesystem
the first call produced (a kept symlink and a blocking file, so an unchanged
filesystem) returns the first call's result; the second `unlinkFromAll` call
on the filesystem the first call produced (both targets now absent) returns
empty success and the first call's empty failed list. -/
theorem batch_second_call_witness :
    link_skill_to_all "demo" true
        [(⟨"amp", "Amp", ".config/agents/skills"⟩, ⟨true, .symlink, true, true, true⟩),
         (⟨"cursor", "Cursor", ".cursor/skills"⟩, ⟨true, .file, true, true, true⟩)]
      = .ok
        (⟨["amp"], [⟨"cursor", "A file or directory already exists at the target path"⟩]⟩,
         [(⟨"amp", "Amp", ".config/agents/skills"⟩, ⟨true, .symlink, true, true, true⟩),
          (⟨"cursor", "Cursor", ".cursor/skills"⟩, ⟨true, .file, true, true, true⟩)]) ∧
    unlink_skill_from_all
        [(⟨"amp", "Amp", ".config/agents/skills"⟩, ⟨true, .absent, true, true, true⟩),
         (⟨"cursor", "Cursor", ".cursor/skills"⟩, ⟨true, .absent, true, true, true⟩)]
      = (⟨[], []⟩,
         [(⟨"amp", "Amp", ".config/agents/skills"⟩, ⟨true, .absent, true, true, true⟩),
          (⟨"cursor", "Cursor", ".cursor/skills"⟩, ⟨true, .absent, true, true, true⟩)]) :=
  ⟨(batch_second_call "demo"
      [(⟨"amp", "Amp", ".config/agents/skills"⟩, ⟨true, .symlink, true, true, true⟩),
       (⟨"cursor", "Cursor", ".cursor/skills"⟩, ⟨true, .file, true, true, true⟩)]).1
      ⟨["amp"], [⟨"cursor", "A file or directory already exists at the target path"⟩]⟩
      [(⟨"amp", "Amp", ".config/agents/skills"⟩, ⟨true, .symlink, true, true, true⟩),
       (⟨"cursor", "Cursor", ".cursor/skills"⟩, ⟨true, .file, true, true, true⟩)] rfl,
   (batch_second_call "demo"
      [(⟨"amp", "Amp", ".config/agents/skills"⟩, ⟨true, .symlink, true, true, true⟩),
       (⟨"cursor", "Cursor", ".cursor/skills"⟩, ⟨true, .absent, true, true, true⟩)]).2
      ⟨["amp"], []⟩
      [(⟨"amp", "Amp", ".config/agents/skills"⟩, ⟨true, .absent, true, true, true⟩),
       (⟨"cursor", "Cursor", ".cursor/skills"⟩, ⟨true, .absent, true, true, true⟩)] rfl⟩

/-- Counterexample to C5 as stated: with a regular file blocking the one
detected agent's target and nothing external changing, the first `linkAll`
call leaves the filesystem exactly as it was, so the second call — the same
application — reports the same non-empty failed list instead of the empty
one the claim promises. -/
theorem linkAll_second_failed_counterexample :
    link_skill_to_all "demo" true
        [(⟨"cursor", "Cursor", ".cursor/skills"⟩, ⟨true, .file, true, true, true⟩)]
      = .ok
        (⟨[], [⟨"cursor", "A file or directory already exists at the target path"⟩]⟩,
         [(⟨"cursor", "Cursor", ".cursor/skills"⟩, ⟨true, .file, true, true, true⟩)]) ∧
    ([⟨"cursor", "A file or directory already exists at the target path"⟩] :
      List FailedOperation) ≠ [] :=
  ⟨rfl, by decide⟩

/-! ### C8 and C10: the agent detail view -/

/-- Transitivity of the lexicographic comparison. -/
theorem lexLe_trans : ∀ a b c : List Char,
    lexLe a b = true → lexLe b c = true → lexLe a c = true
  | [], _, _, _, _ => rfl
  | _ :: _, [], _, h, _ => by cases h
  | _ :: _, _ :: _, [], _, h => by cases h
  | a :: as, b :: bs, c :: cs, h1, h2 => by
    rw [lexLe] at h1 h2 ⊢
    by_cases hab : a = b <;> by_cases hbc : b = c
    · subst hab; subst hbc
      rw [if_pos rfl] at h1 h2 ⊢
      exact lexLe_trans as bs cs h1 h2
    · subst hab
      rw [if_pos rfl] at h1
      rw [if_neg hbc] at h2 ⊢
      exact h2
    · subst hbc
      rw [if_neg hab] at h1 ⊢
      exact h1
    · rw [if_neg hab] at h1
      rw [if_neg hbc] at h2
      have hac : a < c := lt_trans (of_decide_eq_true h1) (of_decide_eq_true h2)
      have hne : ¬(a = c) := fun h => absurd hac (by rw [h]; exact lt_irrefl c)
      rw [if_neg hne, decide_eq_true_eq]
      exact hac

/-- Totality of the lexicographic comparison. -/
theorem lexLe_total : ∀ a b : List Char, (lexLe a b || lexLe b a) = true
  | [], _ => rfl
  | _ :: _, [] => rfl
  | a :: as, b :: bs => by
    rw [lexLe, lexLe]
    by_cases hab : a = b
    · subst hab
      rw [if_pos rfl, if_pos rfl]
      exact lexLe_total as bs
    · rw [if_neg hab, if_neg (fun h => hab h.symm)]
      rcases lt_or_gt_of_ne (fun h : a = b => hab h) with h | h <;> simp [h]

/-- C8: `agentDetail` fails with the agent-not-found error for every id
absent from the catalog, and for a known id the returned skill list is
sorted lexicographically by skill name. -/
theorem get_agent_detail_spec (agents : List Agent) (agentId : String)
    (globalEntries agentEntries : List DirEntry) :
    ((∀ a ∈ agents, a.id ≠ agentId) →
      get_agent_detail agents agentId globalEntries agentEntries
        = .error ("Agent " ++ agentId ++ " not found")) ∧
    (∀ d, get_agent_detail agents agentId globalEntries agentEntries = .ok d →
      d.skills.Pairwise fun x y => lexLe x.name.data y.name.data = true) := by
  constructor
  · intro h
    have hf : agents.find? (fun a => a.id = agentId) = none :=
      List.find?_eq_none.mpr fun a ha => by simp [h a ha]
    simp [get_agent_detail, hf]
  · intro d hd
    rcases hf : agents.find? (fun a => a.id = agentId) with _ | a
    · simp [get_agent_detail, hf] at hd
    · simp only [get_agent_detail, hf] at hd
      injection hd with hd
      subst hd
      exact List.sorted_mergeSort
        (fun x y z h1 h2 => lexLe_trans x.name.data y.name.data z.name.data h1 h2)
        (fun x y => lexLe_total x.name.data y.name.data) _

-- Witness for C8: an unknown id errors; a known id's skill list (here a
-- local skill and a not-installed global skill) is pairwise ordered.
theorem get_agent_detail_spec_witness :
    get_agent_detail [] "x" [] [] = .error ("Agent " ++ "x" ++ " not found") ∧
    List.Pairwise (fun x y : AgentSkill => lexLe x.name.data y.name.data = true)
      (detailSkills ⟨"cursor", "Cursor", ".cursor/skills", true⟩
        [⟨"zeta", .dir, none, none, "/g/zeta"⟩]
        [⟨"alpha", .dir, none, none, "/a/alpha"⟩]) :=
  ⟨(get_agent_detail_spec [] "x" [] []).1 (by simp),
   (get_agent_detail_spec [⟨"cursor", "Cursor", ".cursor/skills", true⟩] "cursor"
      [⟨"zeta", .dir, none, none, "/g/zeta"⟩] [⟨"alpha", .dir, none, none, "/a/alpha"⟩]).2
      ⟨⟨"cursor", "Cursor", ".cursor/skills", true⟩,
        detailSkills ⟨"cursor", "Cursor", ".cursor/skills", true⟩
          [⟨"zeta", .dir, none, none, "/g/zeta"⟩]
          [⟨"alpha", .dir, none, none, "/a/alpha"⟩]⟩ rfl⟩

/-- Every skill the agent-directory scan produces has symlink or local
status and stems from a directory entry of that name probed as a symlink or
a directory. -/
theorem scanAgentDir_mem (gs : List String) (es : List DirEntry) :
    ∀ (seen : List String) (s : AgentSkill), s ∈ scanAgentDir gs es seen →
      (s.status = .symlinkStatus ∨ s.status = .localStatus) ∧
      ∃ e ∈ es, e.name = s.name ∧ (e.kind = .symlink ∨ e.kind = .dir) := by
  induction es with
  | nil => intro seen s h; simp [scanAgentDir] at h
  | cons e rest ih =>
    intro seen s h
    rw [scanAgentDir] at h
    by_cases h1 : isHiddenName e.name <;> simp only [h1, if_true, if_false] at h
    · obtain ⟨hst, e', he', hprops⟩ := ih seen s h
      exact ⟨hst, e', List.mem_cons_of_mem _ he', hprops⟩
    · by_cases h2 : seen.contains e.name <;> simp only [h2, if_true, if_false] at h
      · obtain ⟨hst, e', he', hprops⟩ := ih seen s h
        exact ⟨hst, e', List.mem_cons_of_mem _ he', hprops⟩
      · cases hk : e.kind <;> rw [hk] at h
        · obtain ⟨hst, e', he', hprops⟩ := ih seen s h
          exact ⟨hst, e', List.mem_cons_of_mem _ he', hprops⟩
        · rcases List.mem_cons.mp h with hs | hs
          · subst hs
            exact ⟨Or.inl rfl, e, List.mem_cons_self _ _, rfl, Or.inl hk⟩
          · obtain ⟨hst, e', he', hprops⟩ := ih _ s hs
            exact ⟨hst, e', List.mem_cons_of_mem _ he', hprops⟩
        · obtain ⟨hst, e', he', hprops⟩ := ih seen s h
          exact ⟨hst, e', List.mem_cons_of_mem _ he', hprops⟩
        · rcases List.mem_cons.mp h with hs | hs
          · subst hs
            exact ⟨Or.inr rfl, e, List.mem_cons_self _ _, rfl, Or.inr hk⟩
          · obtain ⟨hst, e', he', hprops⟩ := ih _ s hs
            exact ⟨hst, e', List.mem_cons_of_mem _ he', hprops⟩

/-- Membership in `detailSkills` of a detected agent is membership in the
scan output or in the not-installed tail. -/
theorem detailSkills_mem (a : Agent) (globalEntries agentEntries : List DirEntry)
    (hdet : a.detected = true) (s : AgentSkill) :
    s ∈ detailSkills a globalEntries agentEntries ↔
      s ∈ scanAgentDir (globalNamesOf globalEntries) agentEntries []
          ++ notInstalledSkills globalEntries
            ((scanAgentDir (globalNamesOf globalEntries) agentEntries []).map (·.name)) := by
  unfold detailSkills
  rw [hdet]
  simp only [if_true]
  exact (List.mergeSort_perm _ _).mem_iff

/-- C10: an entry of a detected agent's directory that is neither a symlink
nor a directory (for example a regular file) produces no `AgentSkill` at all
and is not marked seen: every skill bearing its name is a not-installed one,
and when a global skill shares the entry's name that skill is still reported
with status `notInstalled` and no source path; when no global skill shares
the name, no skill of that name appears at all. -/
theorem agent_detail_file_entry
    (agents : List Agent) (agentId : String) (globalEntries agentEntries : List DirEntry)
    (a : Agent) (e : DirEntry) (d : AgentDetailData)
    (hfind : agents.find? (fun x => x.id = agentId) = some a)
    (hdet : a.detected = true)
    (hnodup : (agentEntries.map DirEntry.name).Nodup)
    (he : e ∈ agentEntries) (hkind : e.kind = .file)
    (hd : get_agent_detail agents agentId globalEntries agentEntries = .ok d) :
    (∀ s ∈ d.skills, s.name = e.name →
      s.status = .notInstalled ∧ s.source_path = none ∧ s.in_global = true) ∧
    (e.name ∈ globalNamesOf globalEntries →
      ∃ s ∈ d.skills, s.name = e.name ∧ s.status = .notInstalled ∧ s.source_path = none) ∧
    (e.name ∉ globalNamesOf globalEntries → ∀ s ∈ d.skills, s.name ≠ e.name) := by
  have hinj := List.inj_on_of_nodup_map hnodup
  simp only [get_agent_detail, hfind] at hd
  injection hd with hd
  subst hd
  have hskills := detailSkills_mem a globalEntries agentEntries hdet
  have hnotscan : ∀ s ∈ scanAgentDir (globalNamesOf globalEntries) agentEntries [],
      s.name ≠ e.name := by
    intro s hs hname
    obtain ⟨_, e', he', hename, hekind⟩ := scanAgentDir_mem _ _ _ s hs
    have heq : e' = e := hinj he' he (by rw [hename, hname])
    subst heq
    rw [hkind] at hekind
    rcases hekind with h | h <;> cases h
  refine ⟨?_, ?_, ?_⟩
  · intro s hs hname
    rcases List.mem_append.mp ((hskills s).mp hs) with hsc | hni
    · exact absurd hname (hnotscan s hsc)
    · obtain ⟨n, hn, hmk⟩ := List.mem_map.mp hni
      subst hmk
      exact ⟨rfl, rfl, rfl⟩
  · intro hg
    have hseen : ((scanAgentDir (globalNamesOf globalEntries) agentEntries []).map
        (·.name)).contains e.name = false := by
      rw [Bool.eq_false_iff]
      intro hc
      have hmem : e.name ∈ (scanAgentDir (globalNamesOf globalEntries) agentEntries []).map
          (·.name) := by simpa using hc
      obtain ⟨s, hs, hname⟩ := List.mem_map.mp hmem
      exact hnotscan s hs hname
    refine ⟨⟨e.name, load_skill_metadata ((globalEntries.find? (fun x => x.name = e.name)).bind
        (·.descriptor)) e.name, .notInstalled, none, true⟩, ?_, rfl, rfl, rfl⟩
    refine (hskills _).mpr (List.mem_append.mpr (Or.inr ?_))
    exact List.mem_map_of_mem _ (List.mem_filter.mpr ⟨hg, by rw [hseen]; rfl⟩)
  · intro hg s hs hname
    rcases List.mem_append.mp ((hskills s).mp hs) with hsc | hni
    · exact hnotscan s hsc hname
    · obtain ⟨n, hn, hmk⟩ := List.mem_map.mp hni
      obtain ⟨hng, _⟩ := List.mem_filter.mp hn
      subst hmk
      have hname' : n = e.name := hname
      exact hg (hname' ▸ hng)

-- Witness for C10: a regular file named "demo" in the detected agent's
-- directory, with a global skill of the same name: the detail view lists
-- "demo" once, as not installed, with no source path.
unseal List.merge List.mergeSort in
theorem agent_detail_file_entry_witness :
    ∃ s ∈ (AgentDetailData.mk ⟨"cursor", "Cursor", ".cursor/skills", true⟩
        [⟨"demo", ⟨"demo".data, noDescription, []⟩, .notInstalled, none, true⟩]).skills,
      s.name = "demo" ∧ s.status = .notInstalled ∧ s.source_path = none :=
  (agent_detail_file_entry [⟨"cursor", "Cursor", ".cursor/skills", true⟩] "cursor"
      [⟨"demo", .dir, none, none, "/g/demo"⟩] [⟨"demo", .file, none, none, "/a/demo"⟩]
      ⟨"cursor", "Cursor", ".cursor/skills", true⟩ ⟨"demo", .file, none, none, "/a/demo"⟩
      ⟨⟨"cursor", "Cursor", ".cursor/skills", true⟩,
        [⟨"demo", ⟨"demo".data, noDescription, []⟩, .notInstalled, none, true⟩]⟩
      rfl rfl (by decide) (by simp) rfl rfl).2.1 (by decide)

/-! ### C1: the round trip

The counterexample first: a name with a trailing space consists only of
characters the formatter can escape (a letter and a space — a leading space
is even quoted correctly), yet the formatter emits it unquoted, the YAML
plain-scalar rule trims it back, and the round trip loses the space. -/

-- A character the formatter can carry losslessly in some position: anything
-- but a line break or a tab (those cannot be escaped by the `\`/`"` scheme
-- and break the line structure of the emitted document).
/-- Whether a character is free of the line-structure control characters. -/
def okChar (c : Char) : Bool := !(c = '\n' || c = '\r' || c = '\t')

/-- Counterexample to C1 as stated: the metadata with name "a ",
description "d" and no tools uses only characters the formatter can escape
(letters, a space), yet parsing the formatted text yields name "a" — the
trailing space is emitted unquoted and trimmed away by the scalar parse. -/
theorem round_trip_trailing_space_counterexample :
    (∀ c ∈ ("a ".data ++ "d".data), okChar c = true) ∧
    parse_skill_md (format_skill_md ⟨"a ".data, "d".data, []⟩) ≠
      (⟨"a ".data, "d".data, []⟩ : SkillMetadata) ∧
    parse_skill_md (format_skill_md ⟨"a ".data, "d".data, []⟩) =
      (⟨"a".data, "d".data, []⟩ : SkillMetadata) := by
  exact ⟨by decide, by decide, by decide⟩

/-- A scalar field the formatter round-trips: free of line-structure control
characters, and not ending in a space unless the formatter quotes the value
anyway (an unquoted trailing space does not survive the scalar parse). -/
def SafeScalar (v : List Char) : Prop :=
  (∀ c ∈ v, okChar c = true) ∧
  (v.getLast? = some ' ' → needs_yaml_quoting v = true)

/-- A tool entry the formatter round-trips: the formatter never quotes list
items, so the item must already be a plain scalar — non-empty, free of
control and YAML special characters, not starting with a space or a dash,
not ending in a space. -/
def SafeTool (t : List Char) : Prop :=
  t ≠ [] ∧ (∀ c ∈ t, okChar c = true ∧ specialChars.contains c = false) ∧
  t.head? ≠ some ' ' ∧ t.head? ≠ some '-' ∧ t.getLast? ≠ some ' '

/-! #### Trim and prefix lemmas -/

theorem trimStart_cons_of_ws (c : Char) (s : List Char) (h : isWS c = true) :
    trimStart (c :: s) = trimStart s := by
  simp [trimStart, List.dropWhile_cons, h]

theorem trimStart_cons_of_not (c : Char) (s : List Char) (h : isWS c = false) :
    trimStart (c :: s) = c :: s := by
  simp [trimStart, List.dropWhile_cons, h]

theorem dropWhile_eq_self_of_head (p : Char → Bool) (l : List Char)
    (h : ∀ c, l.head? = some c → p c = false) : l.dropWhile p = l := by
  cases l with
  | nil => rfl
  | cons c cs => simp [List.dropWhile_cons, h c rfl]

theorem trimEnd_eq_self (s : List Char) (c : Char) (h : s.getLast? = some c)
    (hc : isWS c = false) : trimEnd s = s := by
  unfold trimEnd
  rw [dropWhile_eq_self_of_head, List.reverse_reverse]
  intro c' hc'
  rw [List.head?_reverse, h] at hc'
  injection hc' with hc'
  rw [← hc']
  exact hc

theorem trimEnd_concat_ws (s : List Char) (c : Char) (h : isWS c = true) :
    trimEnd (s ++ [c]) = trimEnd s := by
  unfold trimEnd
  rw [List.reverse_append]
  simp [List.dropWhile_cons, h]

theorem trim_cons_sp (v : List Char) (c d : Char) (hv : v.head? = some c)
    (hc : isWS c = false) (hl : v.getLast? = some d) (hd : isWS d = false) :
    trim (' ' :: v) = v := by
  unfold trim
  rw [trimStart_cons_of_ws _ _ (by decide)]
  cases v with
  | nil => cases hv
  | cons x xs =>
    injection hv with hv
    subst hv
    rw [trimStart_cons_of_not _ _ hc]
    exact trimEnd_eq_self _ _ hl hd

theorem startsWith_append_self : ∀ (p rest : List Char), startsWith p (p ++ rest) = true
  | [], _ => rfl
  | c :: cs, rest => by
    rw [List.cons_append, startsWith]
    simp [startsWith_append_self cs rest]

theorem startsWith_false_of_head (p c : Char) (ps s : List Char) (h : p ≠ c) :
    startsWith (p :: ps) (c :: s) = false := by
  simp [startsWith, h]

theorem trim_ne_nil (s : List Char) (c : Char) (h : s.head? = some c)
    (hc : isWS c = false) : ¬(trim s = []) := by
  cases s with
  | nil => cases h
  | cons x xs =>
    injection h with h
    subst h
    unfold trim
    rw [trimStart_cons_of_not _ _ hc]
    intro hnil
    have hall : ∀ a ∈ (x :: xs).reverse, isWS a = true := by
      have := congrArg List.reverse hnil
      rw [trimEnd, List.reverse_reverse] at this
      intro a ha
      exact List.dropWhile_eq_nil_iff.mp this a ha
    have hmem : x ∈ (x :: xs).reverse := by simp
    rw [hall x hmem] at hc
    cases hc

/-! #### Escaping lemmas -/

theorem replaceChar_append (c : Char) (rep : List Char) :
    ∀ xs ys, replaceChar c rep (xs ++ ys) = replaceChar c rep xs ++ replaceChar c rep ys
  | [], ys => rfl
  | x :: xs, ys => by
    simp [replaceChar, replaceChar_append c rep xs ys, List.append_assoc]

theorem escapeYaml_cons_backslash (v : List Char) :
    escapeYaml ('\\' :: v) = '\\' :: '\\' :: escapeYaml v := by
  unfold escapeYaml
  rw [show ('\\' :: v) = ['\\'] ++ v from rfl, replaceChar_append, replaceChar_append]
  simp [replaceChar]

theorem escapeYaml_cons_quote (v : List Char) :
    escapeYaml ('"' :: v) = '\\' :: '"' :: escapeYaml v := by
  unfold escapeYaml
  rw [show ('"' :: v) = ['"'] ++ v from rfl, replaceChar_append, replaceChar_append]
  simp [replaceChar]

theorem escapeYaml_cons_other (c : Char) (v : List Char) (h1 : ¬c = '\\')
    (h2 : ¬c = '"') : escapeYaml (c :: v) = c :: escapeYaml v := by
  unfold escapeYaml
  rw [show (c :: v) = [c] ++ v from rfl, replaceChar_append, replaceChar_append]
  simp [replaceChar, h1, h2]

theorem unescapeQuoted_escapeYaml : ∀ v : List Char,
    unescapeQuoted (escapeYaml v) = some v
  | [] => rfl
  | c :: v => by
    by_cases h1 : c = '\\'
    · subst h1
      rw [escapeYaml_cons_backslash]
      simp [unescapeQuoted, unescapeQuoted_escapeYaml v]
    · by_cases h2 : c = '"'
      · subst h2
        rw [escapeYaml_cons_quote]
        simp [unescapeQuoted, unescapeQuoted_escapeYaml v]
      · rw [escapeYaml_cons_other c v h1 h2, unescapeQuoted.eq_def]
        simp [h1, h2, unescapeQuoted_escapeYaml v]

theorem escapeYaml_chars (v : List Char) :
    ∀ c' ∈ escapeYaml v, c' = '\\' ∨ c' ∈ v := by
  induction v with
  | nil => intro c' h; cases h
  | cons c v ih =>
    intro c' h
    have step : ∀ hmem : c' ∈ escapeYaml v, c' = '\\' ∨ c' ∈ c :: v := fun hmem =>
      (ih c' hmem).imp id (List.mem_cons_of_mem c)
    by_cases h1 : c = '\\'
    · subst h1
      rw [escapeYaml_cons_backslash] at h
      rcases List.mem_cons.mp h with h | h
      · exact Or.inl h
      rcases List.mem_cons.mp h with h | h
      · exact Or.inl h
      · exact step h
    · by_cases h2 : c = '"'
      · subst h2
        rw [escapeYaml_cons_quote] at h
        rcases List.mem_cons.mp h with h | h
        · exact Or.inl h
        rcases List.mem_cons.mp h with h | h
        · exact Or.inr (h ▸ List.mem_cons_self _ _)
        · exact step h
      · rw [escapeYaml_cons_other c v h1 h2] at h
        rcases List.mem_cons.mp h with h | h
        · exact Or.inr (h ▸ List.mem_cons_self _ _)
        · exact step h

/-! #### Scalar parse lemmas -/

theorem okChar_not_ws (c : Char) (hok : okChar c = true) (hsp : ¬c = ' ') :
    isWS c = false := by
  rw [Bool.eq_false_iff]
  intro hws
  unfold isWS at hws
  simp only [Bool.or_eq_true, decide_eq_true_eq] at hws
  rcases hws with ((h | h) | h) | h
  · exact hsp h
  all_goals (subst h; simp [okChar] at hok)

theorem needs_quoting_no_special (v : List Char) (h : needs_yaml_quoting v = false) :
    ∀ c ∈ v, specialChars.contains c = false := by
  intro c hc
  unfold needs_yaml_quoting at h
  by_cases hv : v = []
  · subst hv; cases hc
  · rw [if_neg hv] at h
    by_cases hany : v.any (fun c => specialChars.contains c) = true
    · rw [if_pos hany] at h; cases h
    · rw [Bool.eq_false_iff]
      intro hcc
      exact hany (List.any_eq_true.mpr ⟨c, hc, hcc⟩)

theorem needs_quoting_head_not_sp (v : List Char) (h : needs_yaml_quoting v = false) :
    ¬(v.head? = some ' ') := by
  intro hh
  unfold needs_yaml_quoting at h
  by_cases hv : v = []
  · subst hv; cases hh
  · rw [if_neg hv] at h
    by_cases hany : v.any (fun c => specialChars.contains c) = true
    · rw [if_pos hany] at h; cases h
    · rw [if_neg hany, if_pos (by rw [hh]; simp)] at h
      cases h

/-- The quoted or raw text the formatter emits after the `key: ` separator. -/
def rendered (v : List Char) : List Char :=
  if needs_yaml_quoting v then '"' :: (escapeYaml v ++ ['"']) else v

/-- Parsing back the rendered scalar after the `key: ` separator recovers
the value, for any safe scalar. -/
theorem scalarParse_rendered (v : List Char)
    (hok : ∀ c ∈ v, okChar c = true)
    (hsp : v.getLast? = some ' ' → needs_yaml_quoting v = true) :
    scalarParse (' ' :: rendered v) = some v := by
  unfold rendered
  by_cases hq : needs_yaml_quoting v = true
  · rw [if_pos hq]
    unfold scalarParse
    have htrim : trim (' ' :: '"' :: (escapeYaml v ++ ['"']))
        = '"' :: (escapeYaml v ++ ['"']) := by
      refine trim_cons_sp _ '"' '"' rfl (by decide) ?_ (by decide)
      rw [show '"' :: (escapeYaml v ++ ['"']) = ('"' :: escapeYaml v) ++ ['"'] by simp]
      exact List.getLast?_concat _
    rw [htrim]
    simp only [List.head?_cons, List.tail_cons, if_pos rfl]
    rw [List.getLast?_concat, if_pos rfl, List.dropLast_concat]
    exact unescapeQuoted_escapeYaml v
  · rw [if_neg hq]
    rw [Bool.not_eq_true] at hq
    cases hv : v with
    | nil => rfl
    | cons x xs =>
      subst hv
      have hx : isWS x = false :=
        okChar_not_ws x (hok x (by simp))
          (fun h => needs_quoting_head_not_sp _ hq (by rw [h]; rfl))
      obtain ⟨d, hd⟩ : ∃ d, (x :: xs).getLast? = some d :=
        ⟨(x :: xs).getLast (by simp), List.getLast?_eq_getLast_of_ne_nil (by simp)⟩
      have hdm : d ∈ x :: xs := by
        obtain ⟨hne, heq⟩ := List.mem_getLast?_eq_getLast
          (show d ∈ (x :: xs).getLast? from by rw [hd]; rfl)
        rw [heq]
        exact List.getLast_mem hne
      have hdw : isWS d = false := by
        refine okChar_not_ws d (hok d hdm) fun h => ?_
        rw [h] at hd
        rw [hsp hd] at hq
        cases hq
      unfold scalarParse
      rw [trim_cons_sp (x :: xs) x d rfl hx hd hdw]
      have hx2 : ¬((x :: xs).head? = some '"') := by
        intro h
        injection h with h
        have := needs_quoting_no_special _ hq x (by simp)
        rw [h] at this
        cases this
      rw [if_neg hx2]
      have hplain : plainOk (x :: xs) = true := by
        unfold plainOk
        rw [List.all_eq_true]
        intro c hc
        rw [needs_quoting_no_special _ hq c hc]
        rfl
      rw [if_pos hplain]

/-! #### Joining and splitting lines -/

/-- Join lines, each terminated by a newline (the shape of the formatter's
output). -/
def unlines : List (List Char) → List Char
  | [] => []
  | l :: ls => l ++ '\n' :: unlines ls

/-- Join lines with separating newlines and no terminator (the shape of the
trimmed frontmatter body). -/
def joinNL : List (List Char) → List Char
  | [] => []
  | [l] => l
  | l :: ls => l ++ '\n' :: joinNL ls

theorem unlines_append : ∀ xs ys : List (List Char),
    unlines (xs ++ ys) = unlines xs ++ unlines ys
  | [], ys => rfl
  | x :: xs, ys => by
    simp [unlines, unlines_append xs ys]

theorem joinNL_cons_of_ne_nil (l : List Char) (ms : List (List Char)) (h : ms ≠ []) :
    joinNL (l :: ms) = l ++ '\n' :: joinNL ms := by
  cases ms with
  | nil => exact absurd rfl h
  | cons m ms => rfl

theorem unlines_eq_joinNL : ∀ ms : List (List Char), ms ≠ [] →
    unlines ms = joinNL ms ++ ['\n']
  | [], h => absurd rfl h
  | [l], _ => by simp [unlines, joinNL]
  | l :: l2 :: ms, _ => by
    rw [unlines, unlines_eq_joinNL (l2 :: ms) (List.cons_ne_nil _ _),
      joinNL_cons_of_ne_nil l (l2 :: ms) (List.cons_ne_nil _ _)]
    simp

/-! #### Locating the closing delimiter -/

theorem findSub_cons_of_not (pat : List Char) (c : Char) (s : List Char)
    (h : startsWith pat (c :: s) = false) :
    findSub pat (c :: s) = (findSub pat s).map (· + 1) := by
  simp [findSub, h]

theorem startsWith_nl_false (ps : List Char) (c : Char) (s : List Char)
    (h : ¬c = '\n') : startsWith ('\n' :: ps) (c :: s) = false := by
  simp [startsWith, Ne.symm h]

theorem findSub_nl_append (ps : List Char) :
    ∀ (l s : List Char), (∀ c ∈ l, ¬c = '\n') →
    findSub ('\n' :: ps) (l ++ s) = (findSub ('\n' :: ps) s).map (· + l.length)
  | [], s, _ => by simp
  | c :: l, s, h => by
    rw [List.cons_append,
      findSub_cons_of_not _ _ _ (startsWith_nl_false ps c _ (h c (by simp))),
      findSub_nl_append ps l s (fun c hc => h c (by simp [hc]))]
    cases findSub ('\n' :: ps) s <;> simp
    omega

theorem startsWith_concat_nl_false (p : List Char) (hp : ∀ c ∈ p, ¬c = '\n') :
    ∀ (l t : List Char), startsWith p l = false → ('\n' ∉ l) →
    startsWith p (l ++ '\n' :: t) = false := by
  induction p with
  | nil => intro l t h _; cases h
  | cons a ps ih =>
    intro l t h hnl
    cases l with
    | nil => exact startsWith_false_of_head a '\n' ps t (hp a (by simp))
    | cons c cs =>
      rw [List.cons_append, startsWith]
      rw [startsWith] at h
      by_cases hac : a = c
      · subst hac
        have h' : startsWith ps cs = false := by simpa using h
        have hgoal := ih (fun c hc => hp c (by simp [hc])) cs t h'
          (fun hm => hnl (by simp [hm]))
        simpa using hgoal
      · simp [hac]

/-- A line the frontmatter body may contain without confusing the search
for the closing delimiter: no embedded newline, and not starting with
`---`. -/
def lineOkFM (l : List Char) : Prop :=
  ('\n' ∉ l) ∧ startsWith "---".data l = false

/-- The first `\n---` of the emitted document sits exactly at the newline
preceding the closing delimiter line. -/
theorem findSub_unlines_dashes : ∀ ms : List (List Char), (∀ l ∈ ms, lineOkFM l) →
    findSub "\n---".data ('\n' :: unlines (ms ++ ["---".data]))
      = some (unlines ms).length
  | [], _ => by decide
  | l :: ms, h => by
    obtain ⟨hnl, hsw⟩ := h l (by simp)
    have hstep : ∀ l' ∈ ms, lineOkFM l' := fun l' hl' => h l' (by simp [hl'])
    have hpat : ("\n---".data : List Char) = '\n' :: "---".data := rfl
    have hih := findSub_unlines_dashes ms hstep
    rw [hpat] at hih
    have hl' : ∀ c ∈ l, ¬c = '\n' := fun c hc hh => hnl (hh ▸ hc)
    have lhs_eq : findSub "\n---".data ('\n' :: unlines ((l :: ms) ++ ["---".data]))
        = some ((unlines ms).length + l.length + 1) := by
      rw [List.cons_append, unlines]
      have hsw2 : startsWith "\n---".data
          ('\n' :: (l ++ '\n' :: unlines (ms ++ ["---".data]))) = false := by
        rw [hpat, startsWith]
        have hx := startsWith_concat_nl_false "---".data (by decide) l
          (unlines (ms ++ ["---".data])) hsw hnl
        simp [hx]
      rw [findSub_cons_of_not _ _ _ hsw2, hpat,
        findSub_nl_append "---".data l ('\n' :: unlines (ms ++ ["---".data])) hl', hih]
      rfl
    rw [lhs_eq, unlines]
    refine congrArg some ?_
    simp [List.length_append]
    omega

/-- Taking the found length cuts the document just before the closing
delimiter, leaving the leading newline and the joined body lines. -/
theorem take_unlines (ms : List (List Char)) (t : List Char) (h : ms ≠ []) :
    ('\n' :: (unlines ms ++ t)).take (unlines ms).length = '\n' :: joinNL ms := by
  rw [unlines_eq_joinNL ms h]
  have hlen : (joinNL ms ++ ['\n']).length = (joinNL ms).length + 1 := by simp
  rw [hlen, List.take_succ_cons, List.append_assoc]
  rw [List.take_append_of_le_length (by simp)]
  simp

/-! #### Splitting the body back into lines -/

theorem splitLinesGo_chars : ∀ (l s cur : List Char), (∀ c ∈ l, ¬c = '\n') →
    splitLinesGo (l ++ s) cur = splitLinesGo s (l.reverse ++ cur)
  | [], s, cur, _ => by simp
  | c :: l, s, cur, h => by
    rw [List.cons_append, splitLinesGo, if_neg (h c (by simp)),
      splitLinesGo_chars l s (c :: cur) (fun c hc => h c (by simp [hc]))]
    simp

theorem splitLines_joinNL : ∀ ms : List (List Char), ms ≠ [] →
    (∀ l ∈ ms, ('\n' ∉ l) ∧ ('\r' ∉ l)) → ¬(ms.getLast? = some []) →
    splitLines (joinNL ms) = ms
  | [], h, _, _ => absurd rfl h
  | [l], _, hc, hlast => by
    have hl : l ≠ [] := by
      intro h
      exact hlast (by rw [h]; rfl)
    have hnl : ∀ c ∈ l, ¬c = '\n' := fun c hcm hh =>
      (hc l (by simp)).1 (hh ▸ hcm)
    unfold splitLines joinNL
    rw [show l = l ++ [] from by simp, splitLinesGo_chars l [] [] hnl]
    simp [splitLinesGo, hl]
  | l :: l2 :: ms, _, hc, hlast => by
    have hnl : ∀ c ∈ l, ¬c = '\n' := fun c hcm hh =>
      (hc l (by simp)).1 (hh ▸ hcm)
    have hcr : '\r' ∉ l := (hc l (by simp)).2
    unfold splitLines
    rw [joinNL_cons_of_ne_nil l (l2 :: ms) (List.cons_ne_nil _ _),
      splitLinesGo_chars l ('\n' :: joinNL (l2 :: ms)) [] hnl]
    rw [splitLinesGo, if_pos rfl]
    have hrec := splitLines_joinNL (l2 :: ms) (List.cons_ne_nil _ _)
      (fun x hx => hc x (by simp [hx]))
      (by
        intro hsome
        apply hlast
        rw [List.getLast?_cons_cons]
        exact hsome)
    unfold splitLines at hrec
    rw [hrec]
    have hstrip : stripCR (l.reverse ++ []).reverse = l := by
      rw [List.append_nil, List.reverse_reverse]
      unfold stripCR
      rw [if_neg]
      intro hsome
      obtain ⟨hne, heq⟩ := List.mem_getLast?_eq_getLast
        (show '\r' ∈ l.getLast? from by rw [hsome]; rfl)
      exact hcr (heq ▸ List.getLast_mem hne)
    rw [hstrip]

/-! #### The formatter output, line by line -/

/-- One `key: value` line, without its newline. -/
def fieldLine (key v : List Char) : List Char := key ++ ':' :: ' ' :: rendered v

/-- One `  - tool` line, without its newline. -/
def toolLine (t : List Char) : List Char := "  - ".data ++ t

/-- The lines the formatter emits between the two delimiter lines. -/
def midLines (m : SkillMetadata) : List (List Char) :=
  fieldLine "name".data m.name :: fieldLine "description".data m.description ::
    (if m.allowed_tools = [] then []
     else "allowed-tools:".data :: m.allowed_tools.map toolLine)

theorem format_yaml_field_eq (k v : List Char) :
    format_yaml_field k v = fieldLine k v ++ ['\n'] := by
  unfold format_yaml_field fieldLine rendered
  by_cases h : needs_yaml_quoting v = true
  · rw [if_pos h, if_pos h]
    rw [show (": \"".data : List Char) = [':', ' ', '"'] from rfl,
      show ("\"\n".data : List Char) = ['"', '\n'] from rfl]
    simp
  · rw [if_neg h, if_neg h]
    rw [show (": ".data : List Char) = [':', ' '] from rfl,
      show ("\n".data : List Char) = ['\n'] from rfl]
    simp

theorem tools_foldr_eq (ts : List (List Char)) :
    ts.foldr (fun t acc => "  - ".data ++ t ++ '\n' :: acc) []
      = unlines (ts.map toolLine) := by
  induction ts with
  | nil => rfl
  | cons t ts ih =>
    rw [List.foldr_cons, ih]
    simp [unlines, toolLine, List.append_assoc]

theorem format_eq_unlines (m : SkillMetadata) :
    format_skill_md m = unlines ("---".data :: midLines m ++ ["---".data]) := by
  unfold format_skill_md midLines
  rw [format_yaml_field_eq, format_yaml_field_eq]
  rw [show ("---\n".data : List Char) = "---".data ++ ['\n'] from rfl]
  by_cases ht : m.allowed_tools = []
  · rw [if_pos ht, if_pos ht]
    simp [unlines, List.append_assoc]
  · rw [if_neg ht, if_neg ht]
    rw [show ("allowed-tools:\n".data : List Char) = "allowed-tools:".data ++ ['\n'] from rfl,
      tools_foldr_eq]
    simp only [List.cons_append, unlines, unlines_append]
    simp [unlines, List.append_assoc]
    rw [unlines_append]
    simp [unlines]

/-! #### Shape facts about the emitted lines -/

theorem okChar_not_nl_cr (c : Char) (h : okChar c = true) : ¬c = '\n' ∧ ¬c = '\r' := by
  unfold okChar at h
  simp only [Bool.not_eq_true', Bool.or_eq_false_iff, decide_eq_false_iff_not] at h
  exact ⟨h.1.1, h.1.2⟩

theorem rendered_chars (v : List Char) (hok : ∀ c ∈ v, okChar c = true) :
    ∀ c ∈ rendered v, ¬c = '\n' ∧ ¬c = '\r' := by
  intro c hc
  unfold rendered at hc
  by_cases h : needs_yaml_quoting v = true
  · rw [if_pos h] at hc
    rcases List.mem_cons.mp hc with hc | hc
    · subst hc; exact ⟨by decide, by decide⟩
    rcases List.mem_append.mp hc with hc | hc
    · rcases escapeYaml_chars v c hc with hc | hc
      · subst hc; exact ⟨by decide, by decide⟩
      · exact okChar_not_nl_cr c (hok c hc)
    · rw [List.mem_singleton] at hc
      subst hc; exact ⟨by decide, by decide⟩
  · rw [if_neg h] at hc
    exact okChar_not_nl_cr c (hok c hc)

theorem fieldLine_chars (k v : List Char) (hk : ∀ c ∈ k, ¬c = '\n' ∧ ¬c = '\r')
    (hok : ∀ c ∈ v, okChar c = true) :
    ∀ c ∈ fieldLine k v, ¬c = '\n' ∧ ¬c = '\r' := by
  intro c hc
  unfold fieldLine at hc
  rcases List.mem_append.mp hc with hc | hc
  · exact hk c hc
  rcases List.mem_cons.mp hc with hc | hc
  · subst hc; exact ⟨by decide, by decide⟩
  rcases List.mem_cons.mp hc with hc | hc
  · subst hc; exact ⟨by decide, by decide⟩
  exact rendered_chars v hok c hc

theorem toolLine_chars (t : List Char) (hok : ∀ c ∈ t, okChar c = true) :
    ∀ c ∈ toolLine t, ¬c = '\n' ∧ ¬c = '\r' := by
  intro c hc
  unfold toolLine at hc
  rcases List.mem_append.mp hc with hc | hc
  · rw [show ("  - ".data : List Char) = [' ', ' ', '-', ' '] from rfl] at hc
    simp only [List.mem_cons, List.mem_singleton, List.not_mem_nil, or_false] at hc
    rcases hc with hc | hc | hc | hc <;> (subst hc; exact ⟨by decide, by decide⟩)
  · exact okChar_not_nl_cr c (hok c hc)

theorem startsWith_dashes_false (c : Char) (s : List Char) (h : ¬('-' = c)) :
    startsWith "---".data (c :: s) = false := by
  rw [show ("---".data : List Char) = '-' :: ['-', '-'] from rfl]
  exact startsWith_false_of_head _ _ _ _ h

/-! #### Running the mapping parser over the emitted lines -/

theorem yamlLoop_cons_name (v : List Char) (ls : List (List Char)) (acc : FrontmatterData)
    (hacc : acc.name = none) (hs : scalarParse (' ' :: rendered v) = some v) :
    yamlLoop (fieldLine "name".data v :: ls) .top acc
      = yamlLoop ls .top { acc with name := some v } := by
  have hshape : fieldLine "name".data v = "name:".data ++ (' ' :: rendered v) := rfl
  have hblank : ¬(trim (fieldLine "name".data v) = []) :=
    trim_ne_nil _ 'n' rfl (by decide)
  have hsw : startsWith "name:".data (fieldLine "name".data v) = true := by
    rw [hshape]
    exact startsWith_append_self _ _
  have hdrop : (fieldLine "name".data v).drop 5 = ' ' :: rendered v := by
    rw [hshape, show (5 : Nat) = ("name:".data : List Char).length from rfl, List.drop_left]
  rw [yamlLoop]
  simp only [if_neg hblank, hsw, hdrop, hs, hacc, if_pos rfl]
  simp

theorem yamlLoop_cons_desc (v : List Char) (ls : List (List Char)) (acc : FrontmatterData)
    (hacc : acc.description = none) (hs : scalarParse (' ' :: rendered v) = some v) :
    yamlLoop (fieldLine "description".data v :: ls) .top acc
      = yamlLoop ls .top { acc with description := some v } := by
  have hshape : fieldLine "description".data v
      = "description:".data ++ (' ' :: rendered v) := rfl
  have hshape2 : fieldLine "description".data v
      = 'd' :: ("escription".data ++ ':' :: ' ' :: rendered v) := rfl
  have hblank : ¬(trim (fieldLine "description".data v) = []) :=
    trim_ne_nil _ 'd' rfl (by decide)
  have hswn : startsWith "name:".data (fieldLine "description".data v) = false := by
    rw [hshape2, show ("name:".data : List Char) = 'n' :: "ame:".data from rfl]
    exact startsWith_false_of_head _ _ _ _ (by decide)
  have hsw : startsWith "description:".data (fieldLine "description".data v) = true := by
    rw [hshape]
    exact startsWith_append_self _ _
  have hdrop : (fieldLine "description".data v).drop 12 = ' ' :: rendered v := by
    rw [hshape, show (12 : Nat) = ("description:".data : List Char).length from rfl,
      List.drop_left]
  rw [yamlLoop]
  simp only [if_neg hblank, hswn, hsw, hdrop, hs, hacc, if_pos rfl]
  simp

theorem yamlLoop_cons_tools_key (ls : List (List Char)) (acc : FrontmatterData)
    (hacc : acc.allowed_tools = none) :
    yamlLoop ("allowed-tools:".data :: ls) .top acc
      = yamlLoop ls .tools { acc with allowed_tools := some [] } := by
  have hblank : ¬(trim ("allowed-tools:".data : List Char) = []) :=
    trim_ne_nil _ 'a' rfl (by decide)
  rw [yamlLoop]
  simp only [if_neg hblank, hacc,
    show startsWith "name:".data ("allowed-tools:".data : List Char) = false from by decide,
    show startsWith "description:".data ("allowed-tools:".data : List Char) = false from
      by decide,
    show startsWith "allowed-tools:".data ("allowed-tools:".data : List Char) = true from
      by decide,
    show (("allowed-tools:".data : List Char).drop 14) = [] from by decide]
  rfl

theorem trim_toolLine (t : List Char) (hst : SafeTool t) :
    trim (toolLine t) = '-' :: ' ' :: t := by
  obtain ⟨hne, hchars, hh, _, hl⟩ := hst
  cases t with
  | nil => exact absurd rfl hne
  | cons x xs =>
    rw [show toolLine (x :: xs) = ' ' :: ' ' :: '-' :: ' ' :: x :: xs from rfl]
    unfold trim
    rw [trimStart_cons_of_ws _ _ (by decide), trimStart_cons_of_ws _ _ (by decide),
      trimStart_cons_of_not _ _ (by decide)]
    obtain ⟨d, hd⟩ : ∃ d, (x :: xs).getLast? = some d :=
      ⟨(x :: xs).getLast (by simp), List.getLast?_eq_getLast_of_ne_nil (by simp)⟩
    have hdm : d ∈ x :: xs := by
      obtain ⟨hne2, heq⟩ := List.mem_getLast?_eq_getLast
        (show d ∈ (x :: xs).getLast? from by rw [hd]; rfl)
      rw [heq]
      exact List.getLast_mem hne2
    have hdw : isWS d = false := by
      refine okChar_not_ws d (hchars d hdm).1 fun hsp => ?_
      rw [hsp] at hd
      exact hl hd
    refine trimEnd_eq_self _ d ?_ hdw
    rw [List.getLast?_cons_cons, List.getLast?_cons_cons]
    exact hd

theorem scalarParse_id (t : List Char) (hst : SafeTool t) : scalarParse t = some t := by
  obtain ⟨hne, hchars, hh, _, hl⟩ := hst
  cases t with
  | nil => exact absurd rfl hne
  | cons x xs =>
    have hx : isWS x = false :=
      okChar_not_ws x (hchars x (by simp)).1 fun hsp => hh (by rw [hsp]; rfl)
    obtain ⟨d, hd⟩ : ∃ d, (x :: xs).getLast? = some d :=
      ⟨(x :: xs).getLast (by simp), List.getLast?_eq_getLast_of_ne_nil (by simp)⟩
    have hdm : d ∈ x :: xs := by
      obtain ⟨hne2, heq⟩ := List.mem_getLast?_eq_getLast
        (show d ∈ (x :: xs).getLast? from by rw [hd]; rfl)
      rw [heq]
      exact List.getLast_mem hne2
    have hdw : isWS d = false := by
      refine okChar_not_ws d (hchars d hdm).1 fun hsp => ?_
      rw [hsp] at hd
      exact hl hd
    have htrim : trim (x :: xs) = x :: xs := by
      unfold trim
      rw [trimStart_cons_of_not _ _ hx]
      exact trimEnd_eq_self _ d hd hdw
    unfold scalarParse
    rw [htrim]
    have hx2 : ¬((x :: xs).head? = some '"') := by
      intro hcon
      injection hcon with hcon
      have := (hchars x (by simp)).2
      rw [hcon] at this
      cases this
    rw [if_neg hx2]
    have hplain : plainOk (x :: xs) = true := by
      unfold plainOk
      rw [List.all_eq_true]
      intro c hc
      rw [(hchars c hc).2]
      rfl
    rw [if_pos hplain]

theorem yamlLoop_cons_tool_item (t : List Char) (ls : List (List Char))
    (acc : FrontmatterData) (done : List (List Char))
    (hacc : acc.allowed_tools = some done) (hst : SafeTool t) :
    yamlLoop (toolLine t :: ls) .tools acc
      = yamlLoop ls .tools { acc with allowed_tools := some (done ++ [t]) } := by
  have hitem : isItemLine (toolLine t) = true := by
    unfold isItemLine
    rw [trim_toolLine t hst,
      show ("- ".data : List Char) = '-' :: ' ' :: [] from rfl]
    simp [startsWith, startsWith_append_self]
  have hparse : itemParse (toolLine t) = some t := by
    unfold itemParse
    rw [trim_toolLine t hst]
    rw [if_pos (by simp [startsWith])]
    exact scalarParse_id t hst
  rw [yamlLoop]
  simp only [hitem, hparse, hacc]
  simp

theorem yamlLoop_tools_run (ts : List (List Char)) (hts : ∀ t ∈ ts, SafeTool t) :
    ∀ (done : List (List Char)) (n d : Option (List Char)),
    yamlLoop (ts.map toolLine) .tools ⟨n, d, some done⟩
      = some ⟨n, d, some (done ++ ts)⟩ := by
  induction ts with
  | nil => intro done n d; simp [yamlLoop]
  | cons t ts ih =>
    intro done n d
    rw [List.map_cons,
      yamlLoop_cons_tool_item t _ _ done rfl (hts t (by simp)),
      ih (fun x hx => hts x (by simp [hx])) (done ++ [t]) n d]
    simp

/-- The mapping parse of the formatter's body lines recovers the metadata:
the name and description scalars parse back, and the tools key appears
exactly when the tool list is non-empty. -/
theorem yamlLoop_midLines (m : SkillMetadata)
    (hn : SafeScalar m.name) (hd : SafeScalar m.description)
    (hts : ∀ t ∈ m.allowed_tools, SafeTool t) :
    yamlLoop (midLines m) .top ⟨none, none, none⟩
      = some ⟨some m.name, some m.description,
          if m.allowed_tools = [] then none else some m.allowed_tools⟩ := by
  unfold midLines
  rw [yamlLoop_cons_name m.name _ _ rfl (scalarParse_rendered _ hn.1 hn.2),
    yamlLoop_cons_desc m.description _ _ rfl (scalarParse_rendered _ hd.1 hd.2)]
  by_cases ht : m.allowed_tools = []
  · rw [if_pos ht, if_pos ht]
    simp [yamlLoop]
  · rw [if_neg ht, if_neg ht, yamlLoop_cons_tools_key _ _ rfl,
      yamlLoop_tools_run m.allowed_tools hts [] _ _]
    simp

/-! #### Last characters of the joined body -/

theorem getLast?_joinNL : ∀ (ms : List (List Char)) (l : List Char), l ≠ [] →
    (joinNL (ms ++ [l])).getLast? = l.getLast?
  | [], l, _ => by simp [joinNL]
  | m0 :: ms, l, h => by
    have hih := getLast?_joinNL ms l h
    obtain ⟨d, hdl⟩ : ∃ d, l.getLast? = some d :=
      ⟨l.getLast h, List.getLast?_eq_getLast_of_ne_nil h⟩
    have hJ : joinNL (ms ++ [l]) ≠ [] := by
      intro hnil
      rw [hnil] at hih
      rw [hdl] at hih
      cases hih
    rw [List.cons_append, joinNL_cons_of_ne_nil m0 (ms ++ [l]) (by simp),
      List.getLast?_append_of_ne_nil m0 (List.cons_ne_nil _ _)]
    cases hJc : joinNL (ms ++ [l]) with
    | nil => exact absurd hJc hJ
    | cons j0 J =>
      rw [List.getLast?_cons_cons]
      rw [hJc] at hih
      exact hih

theorem trim_nl_join (j : List Char) (c : Char) (hj : j.head? = some c)
    (hc : isWS c = false) (d : Char) (hdl : j.getLast? = some d)
    (hdw : isWS d = false) : trim ('\n' :: j) = j := by
  unfold trim
  rw [trimStart_cons_of_ws _ _ (by decide)]
  cases j with
  | nil => cases hj
  | cons x xs =>
    injection hj with hj
    subst hj
    rw [trimStart_cons_of_not _ _ hc]
    exact trimEnd_eq_self _ _ hdl hdw

theorem rendered_getLast_nonws (v : List Char) (hok : ∀ c ∈ v, okChar c = true)
    (hsp : v.getLast? = some ' ' → needs_yaml_quoting v = true) (hne : v ≠ []) :
    ∃ d, (rendered v).getLast? = some d ∧ isWS d = false := by
  unfold rendered
  by_cases hq : needs_yaml_quoting v = true
  · rw [if_pos hq]
    refine ⟨'"', ?_, by decide⟩
    rw [show ('"' :: (escapeYaml v ++ ['"'])) = ('"' :: escapeYaml v) ++ ['"'] by simp]
    exact List.getLast?_concat _
  · rw [if_neg hq]
    rw [Bool.not_eq_true] at hq
    obtain ⟨d, hdl⟩ : ∃ d, v.getLast? = some d :=
      ⟨v.getLast hne, List.getLast?_eq_getLast_of_ne_nil hne⟩
    have hdm : d ∈ v := by
      obtain ⟨hne2, heq⟩ := List.mem_getLast?_eq_getLast
        (show d ∈ v.getLast? from by rw [hdl]; rfl)
      rw [heq]
      exact List.getLast_mem hne2
    refine ⟨d, hdl, okChar_not_ws d (hok d hdm) fun hsp2 => ?_⟩
    rw [hsp2] at hdl
    rw [hsp hdl] at hq
    cases hq

theorem fieldLine_getLast_nonws (k v : List Char) (hok : ∀ c ∈ v, okChar c = true)
    (hsp : v.getLast? = some ' ' → needs_yaml_quoting v = true) (hne : v ≠ []) :
    ∃ d, (fieldLine k v).getLast? = some d ∧ isWS d = false := by
  obtain ⟨d, hdl, hdw⟩ := rendered_getLast_nonws v hok hsp hne
  refine ⟨d, ?_, hdw⟩
  unfold fieldLine
  rw [List.getLast?_append_of_ne_nil k (List.cons_ne_nil _ _)]
  cases hr : rendered v with
  | nil =>
    rw [hr] at hdl
    cases hdl
  | cons r0 rv =>
    rw [hr] at hdl
    rw [List.getLast?_cons_cons, List.getLast?_cons_cons]
    exact hdl

theorem toolLine_getLast_nonws (t : List Char) (hst : SafeTool t) :
    ∃ d, (toolLine t).getLast? = some d ∧ isWS d = false := by
  obtain ⟨hne, hchars, _, _, hl⟩ := hst
  obtain ⟨d, hdl⟩ : ∃ d, t.getLast? = some d :=
    ⟨t.getLast hne, List.getLast?_eq_getLast_of_ne_nil hne⟩
  have hdm : d ∈ t := by
    obtain ⟨hne2, heq⟩ := List.mem_getLast?_eq_getLast
      (show d ∈ t.getLast? from by rw [hdl]; rfl)
    rw [heq]
    exact List.getLast_mem hne2
  refine ⟨d, ?_, okChar_not_ws d (hchars d hdm).1 fun hsp => hl (by rw [← hsp]; exact hdl)⟩
  unfold toolLine
  rw [List.getLast?_append_of_ne_nil _ hne]
  exact hdl

theorem midLines_ne_nil_members (m : SkillMetadata) :
    ∀ l ∈ midLines m, l ≠ [] := by
  intro l hl
  unfold midLines at hl
  rcases List.mem_cons.mp hl with h | hl
  · subst h; simp [fieldLine]
  rcases List.mem_cons.mp hl with h | hl
  · subst h; simp [fieldLine]
  · by_cases ht : m.allowed_tools = []
    · rw [if_pos ht] at hl; cases hl
    · rw [if_neg ht] at hl
      rcases List.mem_cons.mp hl with h | hl
      · subst h; simp
      · obtain ⟨t, htm, rfl⟩ := List.mem_map.mp hl
        simp [toolLine]

/-- The lines the trimmed frontmatter body parses back into: the emitted
lines, except that when there are no tools and the description is empty the
final trim also eats the trailing space of the bare `description: ` line. -/
def bodyLines (m : SkillMetadata) : List (List Char) :=
  if m.allowed_tools = [] ∧ m.description = [] then
    [fieldLine "name".data m.name, "description:".data]
  else midLines m

theorem midLines_chars (m : SkillMetadata)
    (hn : SafeScalar m.name) (hd : SafeScalar m.description)
    (hts : ∀ t ∈ m.allowed_tools, SafeTool t) :
    ∀ l ∈ midLines m, ∀ c ∈ l, ¬c = '\n' ∧ ¬c = '\r' := by
  intro l hl
  unfold midLines at hl
  rcases List.mem_cons.mp hl with h | hl
  · subst h
    exact fieldLine_chars _ _ (by decide) hn.1
  rcases List.mem_cons.mp hl with h | hl
  · subst h
    exact fieldLine_chars _ _ (by decide) hd.1
  · by_cases ht : m.allowed_tools = []
    · rw [if_pos ht] at hl; cases hl
    · rw [if_neg ht] at hl
      rcases List.mem_cons.mp hl with h | hl
      · subst h
        decide
      · obtain ⟨t, htm, rfl⟩ := List.mem_map.mp hl
        exact toolLine_chars t fun c hc => ((hts t htm).2.1 c hc).1

theorem midLines_lineOk (m : SkillMetadata)
    (hn : SafeScalar m.name) (hd : SafeScalar m.description)
    (hts : ∀ t ∈ m.allowed_tools, SafeTool t) :
    ∀ l ∈ midLines m, lineOkFM l := by
  intro l hl
  refine ⟨fun hmem => (midLines_chars m hn hd hts l hl '\n' hmem).1 rfl, ?_⟩
  unfold midLines at hl
  rcases List.mem_cons.mp hl with h | hl
  · subst h
    rw [show fieldLine "name".data m.name
        = 'n' :: ("ame".data ++ ':' :: ' ' :: rendered m.name) from rfl]
    exact startsWith_dashes_false _ _ (by decide)
  rcases List.mem_cons.mp hl with h | hl
  · subst h
    rw [show fieldLine "description".data m.description
        = 'd' :: ("escription".data ++ ':' :: ' ' :: rendered m.description) from rfl]
    exact startsWith_dashes_false _ _ (by decide)
  · by_cases ht : m.allowed_tools = []
    · rw [if_pos ht] at hl; cases hl
    · rw [if_neg ht] at hl
      rcases List.mem_cons.mp hl with h | hl
      · subst h
        decide
      · obtain ⟨t, htm, rfl⟩ := List.mem_map.mp hl
        rw [show toolLine t = ' ' :: (' ' :: '-' :: ' ' :: t) from rfl]
        exact startsWith_dashes_false _ _ (by decide)

theorem yamlLoop_desc_colon_line (acc : FrontmatterData) (hacc : acc.description = none) :
    yamlLoop ["description:".data] .top acc = some { acc with description := some [] } := by
  rw [yamlLoop]
  simp only [hacc,
    show ¬(trim ("description:".data : List Char) = []) from
      trim_ne_nil _ 'd' rfl (by decide),
    show startsWith "name:".data ("description:".data : List Char) = false from by decide,
    show startsWith "description:".data ("description:".data : List Char) = true from
      by decide,
    show (("description:".data : List Char).drop 12) = [] from by decide]
  simp [yamlLoop, scalarParse, trim, trimStart, trimEnd, plainOk]

theorem trim_body (m : SkillMetadata)
    (hd : SafeScalar m.description)
    (hts : ∀ t ∈ m.allowed_tools, SafeTool t) :
    trim ('\n' :: joinNL (midLines m)) = joinNL (bodyLines m) := by
  have hhead : joinNL (midLines m)
      = 'n' :: (("ame".data ++ ':' :: ' ' :: rendered m.name)
          ++ '\n' :: joinNL (fieldLine "description".data m.description ::
            (if m.allowed_tools = [] then []
             else "allowed-tools:".data :: m.allowed_tools.map toolLine))) := by
    unfold midLines
    rw [joinNL_cons_of_ne_nil _ _ (List.cons_ne_nil _ _)]
    rfl
  unfold bodyLines
  by_cases hB : m.allowed_tools = [] ∧ m.description = []
  · obtain ⟨ht, hde⟩ := hB
    rw [if_pos ⟨ht, hde⟩]
    have hmid : joinNL (midLines m)
        = (fieldLine "name".data m.name ++ '\n' :: "description:".data) ++ [' '] := by
      unfold midLines
      rw [if_pos ht, hde]
      rw [joinNL_cons_of_ne_nil _ _ (List.cons_ne_nil _ _)]
      rw [show joinNL [fieldLine "description".data []] = fieldLine "description".data []
        from rfl]
      rw [show fieldLine "description".data [] = "description:".data ++ [' '] from rfl]
      simp
    have hbody : joinNL [fieldLine "name".data m.name, "description:".data]
        = fieldLine "name".data m.name ++ '\n' :: "description:".data := rfl
    rw [hmid, hbody]
    unfold trim
    rw [trimStart_cons_of_ws _ _ (by decide)]
    rw [show (fieldLine "name".data m.name ++ '\n' :: "description:".data) ++ [' ']
        = 'n' :: ((("ame".data ++ ':' :: ' ' :: rendered m.name)
            ++ '\n' :: "description:".data) ++ [' ']) from by
      rw [show fieldLine "name".data m.name
          = 'n' :: ("ame".data ++ ':' :: ' ' :: rendered m.name) from rfl]
      simp]
    rw [trimStart_cons_of_not _ _ (by decide)]
    rw [show 'n' :: ((("ame".data ++ ':' :: ' ' :: rendered m.name)
          ++ '\n' :: "description:".data) ++ [' '])
        = ('n' :: (("ame".data ++ ':' :: ' ' :: rendered m.name)
            ++ '\n' :: "description:".data)) ++ [' '] from by simp]
    rw [trimEnd_concat_ws _ _ (by decide)]
    rw [show fieldLine "name".data m.name ++ '\n' :: "description:".data
        = 'n' :: (("ame".data ++ ':' :: ' ' :: rendered m.name)
            ++ '\n' :: "description:".data) from by
      rw [show fieldLine "name".data m.name
          = 'n' :: ("ame".data ++ ':' :: ' ' :: rendered m.name) from rfl]
      simp]
    refine trimEnd_eq_self _ ':' ?_ (by decide)
    rw [show 'n' :: (("ame".data ++ ':' :: ' ' :: rendered m.name)
          ++ '\n' :: "description:".data)
        = ('n' :: ("ame".data ++ ':' :: ' ' :: rendered m.name))
            ++ '\n' :: "description:".data from by simp]
    rw [List.getLast?_append_of_ne_nil _ (List.cons_ne_nil _ _)]
    decide
  · rw [if_neg hB]
    have hlast : ∃ d, (joinNL (midLines m)).getLast? = some d ∧ isWS d = false := by
      by_cases ht : m.allowed_tools = []
      · have hde : ¬(m.description = []) := fun h => hB ⟨ht, h⟩
        have hmid : midLines m = [fieldLine "name".data m.name]
            ++ [fieldLine "description".data m.description] := by
          unfold midLines
          rw [if_pos ht]
          rfl
        rw [hmid, getLast?_joinNL _ _ (by simp [fieldLine])]
        exact fieldLine_getLast_nonws _ _ hd.1 hd.2 hde
      · rcases List.eq_nil_or_concat m.allowed_tools with h | ⟨ts0, tl, hts0⟩
        · exact absurd h ht
        · have hmid : midLines m = (fieldLine "name".data m.name ::
              fieldLine "description".data m.description ::
              "allowed-tools:".data :: ts0.map toolLine) ++ [toolLine tl] := by
            unfold midLines
            rw [if_neg ht, hts0]
            simp [List.concat_eq_append]
          rw [hmid, getLast?_joinNL _ _ (by simp [toolLine])]
          refine toolLine_getLast_nonws tl (hts tl ?_)
          rw [hts0, List.concat_eq_append]
          simp
    obtain ⟨d, hdl, hdw⟩ := hlast
    refine trim_nl_join _ 'n' ?_ (by decide) d hdl hdw
    rw [hhead]
    rfl

end SkillsManager

namespace SkillsManager

theorem yamlParse_body (m : SkillMetadata)
    (hn : SafeScalar m.name) (hd : SafeScalar m.description)
    (hts : ∀ t ∈ m.allowed_tools, SafeTool t) :
    yamlParse (joinNL (bodyLines m))
      = some ⟨some m.name, some m.description,
          if m.allowed_tools = [] then none else some m.allowed_tools⟩ := by
  have hchars := midLines_chars m hn hd hts
  unfold bodyLines
  by_cases hB : m.allowed_tools = [] ∧ m.description = []
  · obtain ⟨ht, hde⟩ := hB
    rw [if_pos ⟨ht, hde⟩]
    have hname_mem : fieldLine "name".data m.name ∈ midLines m := by
      unfold midLines
      simp
    have hsplit : splitLines (joinNL [fieldLine "name".data m.name, "description:".data])
        = [fieldLine "name".data m.name, "description:".data] := by
      refine splitLines_joinNL _ (by simp) ?_ ?_
      · intro l hl
        rcases List.mem_cons.mp hl with h | hl
        · subst h
          exact ⟨fun hm => (hchars _ hname_mem '\n' hm).1 rfl,
                 fun hm => (hchars _ hname_mem '\x0d' hm).2 rfl⟩
        · rw [List.mem_singleton] at hl
          subst hl
          constructor <;> decide
      · intro hsome
        rw [show ([fieldLine "name".data m.name,
            ("description:".data : List Char)]).getLast?
            = some ("description:".data : List Char) from rfl] at hsome
        injection hsome with hsome
        exact absurd hsome.symm (by decide)
    unfold yamlParse
    rw [hsplit]
    show yamlLoop [fieldLine "name".data m.name, "description:".data] .top
        ⟨none, none, none⟩ = _
    rw [yamlLoop_cons_name m.name _ _ rfl (scalarParse_rendered _ hn.1 hn.2),
      yamlLoop_desc_colon_line _ rfl]
    rw [hde, if_pos ht]
  · rw [if_neg hB]
    have hne_mem := midLines_ne_nil_members m
    have hsplit : splitLines (joinNL (midLines m)) = midLines m := by
      refine splitLines_joinNL _ (by unfold midLines; simp) ?_ ?_
      · intro l hl
        exact ⟨fun hm => (hchars l hl '\n' hm).1 rfl,
               fun hm => (hchars l hl '\x0d' hm).2 rfl⟩
      · intro hsome
        have hmem : ([] : List Char) ∈ midLines m := by
          obtain ⟨hne2, heq⟩ := List.mem_getLast?_eq_getLast
            (show ([] : List Char) ∈ (midLines m).getLast? from by rw [hsome]; rfl)
          rw [heq]
          exact List.getLast_mem hne2
        exact hne_mem [] hmem rfl
    unfold yamlParse
    rw [hsplit]
    have hmid_cons : midLines m = fieldLine "name".data m.name ::
        (fieldLine "description".data m.description ::
          (if m.allowed_tools = [] then []
           else "allowed-tools:".data :: m.allowed_tools.map toolLine)) := rfl
    rw [hmid_cons]
    show yamlLoop _ .top ⟨none, none, none⟩ = _
    rw [← hmid_cons, yamlLoop_midLines m hn hd hts]

/-- C1 amended: for metadata whose name and description are free of
line-structure control characters and do not end in a space unless the
formatter quotes them anyway, and whose tool entries are plain scalars the
formatter can emit verbatim, parsing the formatted text recovers the
metadata exactly. -/
theorem parse_format_round_trip (m : SkillMetadata)
    (hn : SafeScalar m.name) (hd : SafeScalar m.description)
    (hts : ∀ t ∈ m.allowed_tools, SafeTool t) :
    parse_skill_md (format_skill_md m) = m := by
  have hlineok := midLines_lineOk m hn hd hts
  have hfmt : format_skill_md m
      = '-' :: '-' :: '-' :: '\n' :: unlines (midLines m ++ ["---".data]) := by
    rw [format_eq_unlines]
    rfl
  have hfm : parse_frontmatter (format_skill_md m) = some m := by
    unfold parse_frontmatter
    rw [hfmt, trimStart_cons_of_not _ _ (by decide)]
    rw [if_pos (by simp [startsWith])]
    rw [show ('-' :: '-' :: '-' :: '\n'
        :: unlines (midLines m ++ ["---".data])).drop 3
        = '\n' :: unlines (midLines m ++ ["---".data]) from rfl]
    simp only [findSub_unlines_dashes (midLines m) hlineok]
    show (yamlParse (trim (('\n' :: unlines (midLines m ++ ["---".data])).take
        (unlines (midLines m)).length))).map _ = _
    rw [show ('\n' :: unlines (midLines m ++ ["---".data]))
        = '\n' :: (unlines (midLines m) ++ unlines ["---".data]) from by
      rw [unlines_append]]
    rw [take_unlines (midLines m) _ (by unfold midLines; simp)]
    rw [trim_body m hd hts, yamlParse_body m hn hd hts]
    by_cases ht : m.allowed_tools = []
    · rw [if_pos ht]
      show some (SkillMetadata.mk m.name m.description []) = some m
      rw [← ht]
    · rw [if_neg ht]
      show some (SkillMetadata.mk m.name m.description m.allowed_tools) = some m
      rfl
  unfold parse_skill_md
  rw [hfm]

-- Witness for the amended C1: a metadata value exercising quoting (a colon
-- forces the name into quotes), a plain description, and two tools.
theorem parse_format_round_trip_witness :
    parse_skill_md (format_skill_md
      ⟨"My Skill: v2".data, "Does things".data, ["tool_a".data, "b-2".data]⟩)
      = ⟨"My Skill: v2".data, "Does things".data, ["tool_a".data, "b-2".data]⟩ :=
  parse_format_round_trip _ ⟨by decide, by decide⟩ ⟨by decide, by decide⟩
    (by
      intro t ht
      rcases List.mem_cons.mp ht with h | h
      · subst h
        exact ⟨by decide, by decide, by decide, by decide, by decide⟩
      · rw [List.mem_singleton] at h
        subst h
        exact ⟨by decide, by decide, by decide, by decide, by decide⟩)

end SkillsManager
